import Mathlib

/-!
Rule engine: parser, renderer, combiner and evaluator.

A shallow embedding of `src/ruleEngine.js` (classes `Node` and `RuleEngine`).

Modelling conventions.
* A JavaScript string is a list of characters (`Str`).  The three regular
  expressions of the source only mention ASCII characters and the class `\s`.
* The regular expressions are run by a small backtracking matcher
  (`star`, `plus`), greedy quantifiers trying the longest match first.
* A JavaScript array used as a stack (`push`/`pop`) is a list whose head is
  the top of the stack, so `nodeStack[0]` is the last element of the list.
* `Node.null` is the JavaScript value `null`: a variable of the source that
  holds a node or `null` has type `Node` here.
* A data record is the function that `data[attribute]` computes (`Record`); a
  number of a record is an integer, and `objectRecord` is the record of a plain
  object, whose lookups fall back on `Object.prototype`.
* A method that can raise returns `Except JSError`; `parseRule` and
  `evaluate_rule` have no raising operation and are total functions.
-/

namespace RuleEngine

/-- A JavaScript string. -/
abbrev Str := List Char

/-! ## Character classes of the regular expressions -/

/-- The apostrophe, the character that delimits a text literal. -/
def quote : Char := Char.ofNat 39

/-- The class `\s` of ECMAScript: white space and line terminators. -/
def isSpace (c : Char) : Bool :=
  let n := c.toNat
  n == 9 || n == 10 || n == 11 || n == 12 || n == 13 || n == 32 || n == 160 ||
  n == 5760 || (8192 ≤ n && n ≤ 8202) || n == 8232 || n == 8233 || n == 8239 ||
  n == 8287 || n == 12288 || n == 65279

/-- The class `[a-z]`. -/
def isLower (c : Char) : Bool := 97 ≤ c.toNat && c.toNat ≤ 122

/-- The class `[a-zA-Z]`. -/
def isAlpha (c : Char) : Bool :=
  (97 ≤ c.toNat && c.toNat ≤ 122) || (65 ≤ c.toNat && c.toNat ≤ 90)

/-- The class `\d`. -/
def isDigit (c : Char) : Bool := 48 ≤ c.toNat && c.toNat ≤ 57

/-- The class `[><=]`. -/
def isCmp (c : Char) : Bool := c.toNat == 62 || c.toNat == 60 || c.toNat == 61

/-! ## A backtracking matcher for the quantifier `+` -/

/-- The loop of a greedy quantifier: `acc` holds the characters taken so far
(newest first); one more character of class `p` is tried first, and the
continuation `k` is called with the text taken and the rest of the input when
taking more does not lead to a match. -/
def star {α : Type} (p : Char → Bool) (k : Str → Str → Option α) : Str → Str → Option α
  | acc, [] => k acc.reverse []
  | acc, c :: rest =>
    if p c then
      match star p k (c :: acc) rest with
      | some r => some r
      | none => k acc.reverse (c :: rest)
    else k acc.reverse (c :: rest)

/-- The greedy quantifier `[p]+`: at least one character of class `p`. -/
def plus {α : Type} (p : Char → Bool) (k : Str → Str → Option α) : Str → Option α
  | [] => none
  | c :: rest => if p c then star p k [c] rest else none

/-! ## The operand pattern `([a-z]+)([><=]+)(\d+|'[a-zA-Z]+')` -/

/-- The three capture groups of one match of `operandPattern`: `match[1]`
(the attribute), `match[2]` and `match[3]`. -/
structure OperandMatch where
  attr : Str
  operator : Str
  value : Str
deriving DecidableEq

/-- Length of the matched text, `match[0].length`. -/
def OperandMatch.length (m : OperandMatch) : Nat :=
  m.attr.length + m.operator.length + m.value.length

/-- The third group, `(\d+|'[a-zA-Z]+')`: the digits alternative is tried
first, then the quoted one; the captured text keeps its quotes. -/
def literalAt {α : Type} (k : Str → Str → Option α) (s : Str) : Option α :=
  match plus isDigit k s with
  | some r => some r
  | none =>
    match s with
    | [] => none
    | q :: rest =>
      if q = quote then
        plus isAlpha (fun w r =>
          match r with
          | [] => none
          | q2 :: r2 => if q2 = quote then k (quote :: (w ++ [quote])) r2 else none) rest
      else none

/-- A match of `operandPattern` that starts at the head of `s`. -/
def operandAt (s : Str) : Option OperandMatch :=
  plus isLower (fun attr r1 =>
    plus isCmp (fun operator r2 =>
      literalAt (fun value _ => some ⟨attr, operator, value⟩) r2) r1) s

/-- The scan of `part.matchAll(operandPattern)`: `skip` counts the characters
of the previous match that are still to be passed over (a match has at least
three characters, so the scan resumes right after it). -/
def matchAllFrom : Str → Nat → List OperandMatch
  | [], _ => []
  | _ :: rest, skip + 1 => matchAllFrom rest skip
  | c :: rest, 0 =>
    match operandAt (c :: rest) with
    | some m => m :: matchAllFrom rest (m.length - 1)
    | none => matchAllFrom rest 0

/-- The array `Array.from(part.matchAll(operandPattern))`. -/
def matchAll (part : Str) : List OperandMatch := matchAllFrom part 0

/-! ## The connective pattern `(AND|OR)` -/

/-- The keyword `AND`. -/
def kwAND : Str := ['A', 'N', 'D']

/-- The keyword `OR`. -/
def kwOR : Str := ['O', 'R']

/-- A match of `(AND|OR)` that starts at the head of `s`; `AND` is tried
first. -/
def keywordAt (s : Str) : Option Str :=
  if kwAND.isPrefixOf s then some kwAND
  else if kwOR.isPrefixOf s then some kwOR
  else none

/-- The scan of `trimmedRule.split(operatorPattern)`: `acc` is the segment
being collected (newest character first) and `skip` counts the characters of
the keyword just found that are still to be passed over.  The pattern has a
capture group, so each keyword is an element of the result. -/
def splitFrom : Str → Nat → Str → List Str
  | [], _, acc => [acc.reverse]
  | _ :: rest, skip + 1, acc => splitFrom rest skip acc
  | c :: rest, 0, acc =>
    match keywordAt (c :: rest) with
    | some kw => acc.reverse :: kw :: splitFrom rest (kw.length - 1) []
    | none => splitFrom rest 0 (c :: acc)

/-- The array `trimmedRule.split(operatorPattern)`. -/
def split (s : Str) : List Str := splitFrom s 0 []

/-- The search of `operatorPattern.exec`: the end index of the first keyword
of `s`, where `i` is the index of the head of `s` in the whole string. -/
def findKeyword : Str → Nat → Option Nat
  | [], _ => none
  | c :: rest, i =>
    match keywordAt (c :: rest) with
    | some kw => some (i + kw.length)
    | none => findKeyword rest (i + 1)

/-- The call `operatorPattern.test(part)`.  The pattern has the flag `g`, so
the search starts at the pattern's `lastIndex`, which is set to the end of the
match on success and to 0 on failure.  Returns the result and the new
`lastIndex`. -/
def test (lastIndex : Nat) (part : Str) : Bool × Nat :=
  if lastIndex > part.length then (false, 0)
  else
    match findKeyword (part.drop lastIndex) lastIndex with
    | some e => (true, e)
    | none => (false, 0)

/-! ## The AST -/

/-- A value of the class `Node`, or `null`.  An operand node carries the
object `{attribute, operator, value}` of `buildOperandAST`, whose three fields
are strings (`attr` is the field `attribute`); an operator node carries its
two children and its connective. -/
inductive Node where
  | null : Node
  | operand (attr operator value : Str) : Node
  | operator (left right : Node) (value : Str) : Node
deriving DecidableEq

/-- The method `buildOperandAST`. -/
def buildOperandAST (ms : List OperandMatch) : Node :=
  match ms with
  | [] => .null
  | m :: _ => .operand m.attr m.operator m.value

/-- The inner `while` loop of `parseRule`: while there is a connective and at
least two nodes, pop `right`, `left` and the connective and push the operator
node. -/
def reduceStacks : List Str → List Node → List Str × List Node
  | [], nodes => ([], nodes)
  | op :: ops, right :: left :: nodes =>
    reduceStacks ops (Node.operator left right op :: nodes)
  | op :: ops, nodes => (op :: ops, nodes)

/-- The variables that the `for` loop of `parseRule` updates. -/
structure ParseState where
  lastIndex : Nat
  operatorStack : List Str
  nodeStack : List Node
deriving DecidableEq

/-- One iteration of the `for` loop of `parseRule`. -/
def parseStep (st : ParseState) (part : Str) : ParseState :=
  let t := test st.lastIndex part
  let pushed : List Str × List Node :=
    if t.1 then (part :: st.operatorStack, st.nodeStack)
    else (st.operatorStack, buildOperandAST (matchAll part) :: st.nodeStack)
  let reduced := reduceStacks pushed.1 pushed.2
  { lastIndex := t.2, operatorStack := reduced.1, nodeStack := reduced.2 }

/-- The state of `parseRule` when its `for` loop ends. -/
def parseLoop (ruleString : Str) : ParseState :=
  let trimmedRule := ruleString.filter (fun c => !isSpace c)
  (split trimmedRule).foldl parseStep { lastIndex := 0, operatorStack := [], nodeStack := [] }

/-- The method `parseRule`; it returns `nodeStack[0]`, the bottom of the node
stack (`undefined` for an empty stack is rendered as `null`). -/
def parseRule (ruleString : Str) : Node :=
  (parseLoop ruleString).nodeStack.getLast?.getD Node.null

/-! ## The renderer -/

/-- The method `ruleToString`. -/
def ruleToString : Node → Str
  | .null => []
  | .operand attr operator value =>
    ['('] ++ attr ++ [' '] ++ operator ++ [' '] ++ value ++ [')']
  | .operator left right value =>
    ['('] ++ ruleToString left ++ [' '] ++ value ++ [' '] ++ ruleToString right ++ [')']

/-! ## The combiner -/

/-- The exceptions the modelled code can raise. -/
inductive JSError where
  | typeError (message : Str) : JSError
deriving DecidableEq

/-- The variables `combinedNode` and `left` of `combine_rules`. -/
structure CombineState where
  combinedNode : Node
  left : Node
deriving DecidableEq

/-- One iteration of the `for` loop of `combine_rules`.  `!left` holds exactly
when `left` is `null` (a node object is truthy).  In the other branch the
fields of `combinedNode` are set, `left` becomes that node, and the assignment
of line 81 to `combinedNode`, a binding declared with `const` at line 70,
raises a `TypeError`. -/
def combineStep (st : CombineState) (rule : Str) : Except JSError CombineState :=
  let ruleAST := parseRule rule
  match st.left with
  | .null => .ok { st with left := ruleAST }
  | left =>
    match st.combinedNode with
    | .operator _ _ value =>
      let combinedNode := Node.operator left ruleAST value
      let _st : CombineState := { combinedNode := combinedNode, left := combinedNode }
      .error (.typeError "Assignment to constant variable.".toList)
    | _ => .error (.typeError "Assignment to constant variable.".toList)

/-- The `for` loop of `combine_rules`. -/
def combineLoop : List Str → CombineState → Except JSError CombineState
  | [], st => .ok st
  | rule :: rules, st =>
    match combineStep st rule with
    | .ok st1 => combineLoop rules st1
    | .error e => .error e

/-- The method `combine_rules`; it returns `left || combinedNode`. -/
def combine_rules (rules : List Str) : Except JSError Node :=
  match combineLoop rules { combinedNode := .operator .null .null kwOR, left := .null } with
  | .ok st =>
    match st.left with
    | .null => .ok st.combinedNode
    | left => .ok left
  | .error e => .error e

/-! ## Values of a data record -/

/-- The numbers that occur: `NaN`, the doubles with an integer value, and
`+Infinity`.  A record value that is a number is taken to be an integer. -/
inductive JSNumber where
  | nan : JSNumber
  | fin (v : Int) : JSNumber
  | posInf : JSNumber
deriving DecidableEq

/-- What `data[attribute]` can be: `undefined` (no such property), a number, a
string, or a function object inherited from `Object.prototype` (given by the
text that `Function.prototype.toString` returns for it). -/
inductive JSValue where
  | undefined : JSValue
  | number (x : JSNumber) : JSValue
  | string (s : Str) : JSValue
  | function (text : Str) : JSValue
deriving DecidableEq

/-- A data record: the result of `data[attribute]` for every attribute. -/
abbrev Record := Str → JSValue

/-- The value of a string of decimal digits. -/
def decimalValue (ds : Str) : Nat := ds.foldl (fun n c => 10 * n + (c.toNat - 48)) 0

/-- The number of binary digits of `n`, by halving (`fuel` bounds the number
of halvings; `n` itself is enough). -/
def bitLengthAux : Nat → Nat → Nat
  | 0, _ => 0
  | fuel + 1, n => if n = 0 then 0 else bitLengthAux fuel (n / 2) + 1

/-- The number of binary digits of `n`. -/
def bitLength (n : Nat) : Nat := bitLengthAux n n

/-- The double nearest to the natural number `n`, ties to even: exact below
`2^53`; above, the 53 leading bits are kept and rounded, and the result is
`+Infinity` when the rounded value reaches `2^1024`. -/
def roundToDouble (n : Nat) : JSNumber :=
  if n < 2 ^ 53 then .fin n
  else
    let e := bitLength n - 53
    let q := n / 2 ^ e
    let r := n % 2 ^ e
    let half := 2 ^ (e - 1)
    let q1 := if half < r ∨ (r = half ∧ q % 2 = 1) then q + 1 else q
    if 1024 < bitLength (q1 * 2 ^ e) then .posInf else .fin (q1 * 2 ^ e)

/-- The conversion `StringToNumber` on the strings that reach it here: the
empty string is 0, a string of digits is the nearest double, `Infinity` is
`+Infinity`, and every other string of letters is `NaN`.  (Other strings, such
as signed or fractional numerals, are outside the literal grammar and are not
modelled: they are mapped to `NaN` as well.) -/
def stringToNumber (s : Str) : JSNumber :=
  if s = [] then .fin 0
  else if s.all isDigit then roundToDouble (decimalValue s)
  else if s = "Infinity".toList then .posInf
  else .nan

/-- The conversion `ToPrimitive`: a function object has no primitive
`valueOf`, so it is converted to its text; other values are primitive. -/
def toPrimitive : JSValue → JSValue
  | .function text => .string text
  | v => v

/-- The conversion `ToNumber` (of a function object: of its primitive). -/
def toNumber : JSValue → JSNumber
  | .undefined => .nan
  | .number x => x
  | .string s => stringToNumber s
  | .function text => stringToNumber text

/-- The order of two numbers, `none` when one of them is `NaN`. -/
def numberLt : JSNumber → JSNumber → Option Bool
  | .nan, _ => none
  | _, .nan => none
  | .fin a, .fin b => some (decide (a < b))
  | .fin _, .posInf => some true
  | .posInf, _ => some false

/-- The order of two strings: lexicographic by character code. -/
def stringLt : Str → Str → Bool
  | _, [] => false
  | [], _ :: _ => true
  | a :: s, b :: t => if a.toNat < b.toNat then true else if b.toNat < a.toNat then false else stringLt s t

/-- The abstract relational comparison `x < y`: both sides are made
primitive; two strings are compared as strings, anything else as numbers;
`none` is the result `undefined`. -/
def lessThan (x y : JSValue) : Option Bool :=
  match toPrimitive x, toPrimitive y with
  | .string s, .string t => some (stringLt s t)
  | px, py => numberLt (toNumber px) (toNumber py)

/-- The operator `===`: values of different types are never equal, and `NaN`
equals nothing. -/
def strictEquals : JSValue → JSValue → Bool
  | .undefined, .undefined => true
  | .string s, .string t => decide (s = t)
  | .number (.fin a), .number (.fin b) => decide (a = b)
  | .number .posInf, .number .posInf => true
  | .function s, .function t => decide (s = t)
  | _, _ => false

/-! ## The evaluator -/

/-- The replacement `.replace(/'/g, '')`. -/
def stripQuotes (s : Str) : Str := s.filter (fun c => c != quote)

/-- The method `evaluateOperand`.  The field `value` of an operand node is a
string (`match[3]`), so `typeof value === 'string'` holds and `compValue` is
that string without its quotes; the alternative `Number(value)` of line 103 is
never taken. -/
def evaluateOperand (attr operator value : Str) (data : Record) : Bool :=
  let dataValue : JSValue :=
    match data attr with
    | .string s => .string (stripQuotes s)
    | v => v
  let compValue : JSValue := .string (stripQuotes value)
  if operator = ['>'] then lessThan compValue dataValue == some true
  else if operator = ['<'] then lessThan dataValue compValue == some true
  else if operator = ['='] then strictEquals dataValue compValue
  else if operator = ['>', '='] then lessThan dataValue compValue == some false
  else if operator = ['<', '='] then lessThan compValue dataValue == some false
  else false

/-- The method `evaluate_rule`. -/
def evaluate_rule : Node → Record → Bool
  | .null, _ => false
  | .operand attr operator value, data => evaluateOperand attr operator value data
  | .operator left right value, data =>
    let leftEval := evaluate_rule left data
    let rightEval := evaluate_rule right data
    if value = kwAND then leftEval && rightEval else leftEval || rightEval

/-! ## Records used as concrete inputs -/

/-- The record `{age: n, status: s}`. -/
def personRecord (n : Int) (s : Str) : Record := fun a =>
  if a = "age".toList then .number (.fin n)
  else if a = "status".toList then .string s
  else .undefined

/-- The record with the single entry `a: n`, a number. -/
def numberRecord (a : Str) (n : Int) : Record := fun b =>
  if b = a then .number (.fin n) else .undefined

/-- The function `Object`, the value of the property `constructor` that a
plain object inherits from `Object.prototype`. -/
def objectConstructor : JSValue :=
  .function "function Object() \x7b [native code] \x7d".toList

/-- The record that a plain object with the given own entries (of distinct
names) is, as `JSON.parse` returns it: a name without an own entry is looked
up in `Object.prototype`, where, among the names `[a-z]+` that an operand can
carry, `constructor` is the only property. -/
def objectRecord (entries : List (Str × JSValue)) : Record := fun name =>
  match entries.lookup name with
  | some v => v
  | none => if name = "constructor".toList then objectConstructor else .undefined

/-- The record with the single entry `a: s`, a string. -/
def stringRecord (a : Str) (s : Str) : Record := fun b =>
  if b = a then .string s else .undefined

/-! ## The parser as a fold over the parts of the rule

The definitions of this section restate the result of `parseRule` as a left
fold; `parseRule_eq_foldParts` proves they agree with the loop of the source. -/

/-- A string that contains neither the substring `AND` nor the substring
`OR`. -/
def NoKeyword (s : Str) : Prop := ¬ kwAND <:+: s ∧ ¬ kwOR <:+: s

/-- The node that `parseRule` pushes for a part that is not a connective. -/
def segmentNode (part : Str) : Node := buildOperandAST (matchAll part)

/-- The tree built from the node `t` and the parts that follow it, taken two
at a time: a connective and the segment after it. -/
def foldTail (t : Node) : List Str → Node
  | kw :: seg :: rest => foldTail (.operator t (segmentNode seg) kw) rest
  | _ => t

/-- The tree built from all the parts of a rule. -/
def foldParts : List Str → Node
  | [] => .null
  | seg :: tail => foldTail (segmentNode seg) tail

/-- What follows the first segment in the result of `split`: connectives
alternating with segments free of connectives. -/
inductive PartsTail : List Str → Prop where
  | nil : PartsTail []
  | cons (kw seg : Str) (rest : List Str) :
      (kw = kwAND ∨ kw = kwOR) → NoKeyword seg → PartsTail rest → PartsTail (kw :: seg :: rest)

/-- The literals of the grammar: a non-empty string of digits, or a non-empty
string of letters between two quotes. -/
def IsLiteral (v : Str) : Prop :=
  (v ≠ [] ∧ ∀ x ∈ v, isDigit x = true) ∨
  (∃ w, w ≠ [] ∧ (∀ x ∈ w, isAlpha x = true) ∧ v = quote :: (w ++ [quote]))

/-- The operand triples of the grammar: an attribute `[a-z]+`, a comparator
`[><=]+` and a literal. -/
def IsTriple (a c v : Str) : Prop :=
  a ≠ [] ∧ (∀ x ∈ a, isLower x = true) ∧ c ≠ [] ∧ (∀ x ∈ c, isCmp x = true) ∧ IsLiteral v

/-! ## Shapes of trees and of rules -/

/-- The input of the split: the rule without its white space. -/
def trimmed (ruleString : Str) : Str := ruleString.filter (fun c => !isSpace c)

/-- Whether a node is `null`. -/
def Node.isNull : Node → Bool
  | .null => true
  | _ => false

/-- Whether every operator node of the tree has both children present. -/
def childrenPresent : Node → Bool
  | .null => true
  | .operand _ _ _ => true
  | .operator left right _ =>
    !left.isNull && !right.isNull && childrenPresent left && childrenPresent right

/-- Whether the tree holds an operand node. -/
def hasOperand : Node → Bool
  | .null => false
  | .operand _ _ _ => true
  | .operator left right _ => hasOperand left || hasOperand right

/-- A well-formed rule: every segment between connectives contains an operand
triple.  The segments are the parts of the split other than the connectives. -/
def WellFormed (ruleString : Str) : Prop :=
  ∀ part ∈ split (trimmed ruleString), part ≠ kwAND → part ≠ kwOR → matchAll part ≠ []

/-- A segment that can be followed by any text without a connective starting
inside it: it contains no connective and does not end in `A`, `N` or `O`. -/
def SafeSegment (seg : Str) : Prop :=
  NoKeyword seg ∧ ∀ x, seg.getLast? = some x → x ≠ 'A' ∧ x ≠ 'N' ∧ x ≠ 'O'

/-- The text made of a first segment followed by connectives and segments. -/
def joinParts (seg0 : Str) : List (Str × Str) → Str
  | [] => seg0
  | (kw, seg) :: rest => seg0 ++ (kw ++ joinParts seg rest)

/-- The connectives and segments of a list of pairs, in order. -/
def listParts : List (Str × Str) → List Str
  | [] => []
  | (kw, seg) :: rest => kw :: seg :: listParts rest

/-- The text of an operand triple: attribute, comparator and literal side by
side. -/
def OperandMatch.text (m : OperandMatch) : Str := m.attr ++ (m.operator ++ m.value)

/-- The operand node of a triple. -/
def OperandMatch.node (m : OperandMatch) : Node := .operand m.attr m.operator m.value

/-- The left-leaning tree `Op(kn, Op(..., Op(k1, t, t1) ...), tn)` over the
node `t` and the connectives and triples that follow it. -/
def chain (t : Node) : List (Str × OperandMatch) → Node
  | [] => t
  | (kw, m) :: rest => chain (.operator t m.node kw) rest

/-- The rule text `t0 k1 t1 ... kn tn`. -/
def ruleText (t0 : OperandMatch) (rest : List (Str × OperandMatch)) : Str :=
  joinParts t0.text (rest.map (fun p => (p.1, p.2.text)))

/-- An operand triple of the grammar whose text contains no connective. -/
def GoodTriple (m : OperandMatch) : Prop :=
  IsTriple m.attr m.operator m.value ∧ NoKeyword m.text

/-- The rendering of an operand triple without its spaces: the text of the
triple in parentheses. -/
def OperandMatch.wrapped (m : OperandMatch) : Str := '(' :: (m.text ++ [')'])

/-- The segment that the rendering of a right child gives: its rendering and
the parenthesis that closes the operator node. -/
def OperandMatch.closed (m : OperandMatch) : Str := m.wrapped ++ [')']

/-- The arithmetic truth value of `v c n` for the four ordering comparators
(false for any other comparator). -/
def compareInt (c : Str) (v n : Int) : Bool :=
  if c = ['>'] then decide (n < v)
  else if c = ['<'] then decide (v < n)
  else if c = ['>', '='] then decide (n ≤ v)
  else if c = ['<', '='] then decide (v ≤ n)
  else false

/-! ## The combiner, described by its result -/

/-- The node `combinedNode` as `combine_rules` creates it: an `OR` operator
node with both children absent. -/
def emptyCombined : Node := .operator .null .null kwOR

/-- What `combine_rules` returns when it completes: the parse of the last
rule when that is present, else the node `combinedNode`. -/
def combineResult (rules : List Str) : Node :=
  match rules.getLast? with
  | none => emptyCombined
  | some rule => if (parseRule rule).isNull then emptyCombined else parseRule rule

/-- The error that the assignment of line 81 raises. -/
def constAssignment : JSError := .typeError "Assignment to constant variable.".toList

/-! ## Counting the nodes of a tree -/

/-- Whether a part of the split is a connective. -/
def isKeyword (part : Str) : Bool := part == kwAND || part == kwOR

/-- The number of operator nodes of a tree. -/
def operatorCount : Node → Nat
  | .operator left right _ => operatorCount left + operatorCount right + 1
  | _ => 0

/-- The leaves of a tree from left to right: its operand nodes and its absent
children (an absent root is its own single leaf). -/
def leaves : Node → List Node
  | .operator left right _ => leaves left ++ leaves right
  | n => [n]

/-! ## The two-stack algorithm as the specification words it

These definitions follow section 4.2 of the specification, not the source;
they are what `parseRule` is compared with. -/

/-- The reduction after each segment: while the connective stack is not empty
and the node stack holds at least two nodes, pop two nodes (right, then left)
and one connective, and push the operator node joining them. -/
def referenceReduce : List Str → List Node → List Str × List Node
  | kw :: kws, right :: left :: nodes =>
    referenceReduce kws (Node.operator left right kw :: nodes)
  | kws, nodes => (kws, nodes)

/-- One segment: a keyword segment is pushed onto the connective stack; any
other segment is matched for its first operand triple, which is pushed as an
operand node if found, and nothing is pushed if not. -/
def referenceStep (st : List Str × List Node) (part : Str) : List Str × List Node :=
  let pushed : List Str × List Node :=
    if part = kwAND ∨ part = kwOR then (part :: st.1, st.2)
    else
      match matchAll part with
      | [] => (st.1, st.2)
      | m :: _ => (st.1, Node.operand m.attr m.operator m.value :: st.2)
  referenceReduce pushed.1 pushed.2

/-- The reference parser: the segments of the split are processed left to
right; the result is the single node left on the node stack, and `none` (the
malformed-rule condition) when the stack holds zero or more than one node. -/
def referenceParse (ruleString : Str) : Option Node :=
  match ((split (trimmed ruleString)).foldl referenceStep ([], [])).2 with
  | [node] => some node
  | _ => none

/-! ## The rule list -/

/-- The method `create_rule`, as it acts on the array `this.rules` (a list in
array order).  The AST is pushed right after `parseRule` returns; `page` stands
for the statements that follow (`renderRules`, `visualizeAST`, clearing the
input field), which act on the page, only read the rule list and the AST, and
may raise.  The result is the rule list afterwards and the value returned: the
AST, or `none` for `undefined` when the `catch` clause ran. -/
def create_rule (page : List Node → Node → Except JSError Unit) (rules : List Node)
    (rule_string : Str) : List Node × Option Node :=
  let ast := parseRule rule_string
  let rules1 := rules ++ [ast]
  match page rules1 ast with
  | .ok _ => (rules1, some ast)
  | .error _ => (rules1, none)

/-! ## The evaluator with its raising operations made explicit -/

/-- The result of `typeof`. -/
def typeOf : JSValue → Str
  | .undefined => "undefined".toList
  | .number _ => "number".toList
  | .string _ => "string".toList
  | .function _ => "function".toList

/-- The call `v.replace(/'/g, '')`: it succeeds on a string; a number and a
function have no method `replace` and `undefined` has no properties, so on
them the call raises a `TypeError`. -/
def callReplace : JSValue → Except JSError Str
  | .string s => .ok (stripQuotes s)
  | _ => .error (.typeError "replace is not a function".toList)

/-- The method `evaluateOperand`, with the call of `replace` on the record
value as an operation that can raise. -/
def evaluateOperand_checked (attr operator value : Str) (data : Record) : Except JSError Bool :=
  let dataValue : Except JSError JSValue :=
    if typeOf (data attr) = "string".toList then
      match callReplace (data attr) with
      | .ok s => .ok (.string s)
      | .error e => .error e
    else .ok (data attr)
  let compValue : JSValue := .string (stripQuotes value)
  match dataValue with
  | .error e => .error e
  | .ok dataValue =>
    if operator = ['>'] then .ok (lessThan compValue dataValue == some true)
    else if operator = ['<'] then .ok (lessThan dataValue compValue == some true)
    else if operator = ['='] then .ok (strictEquals dataValue compValue)
    else if operator = ['>', '='] then .ok (lessThan dataValue compValue == some false)
    else if operator = ['<', '='] then .ok (lessThan compValue dataValue == some false)
    else .ok false

/-- The method `evaluate_rule`, with the errors of its callees passed on.  The
test `!ast` comes before any property of `ast` is read, so the case of `null`
reads none. -/
def evaluate_rule_checked : Node → Record → Except JSError Bool
  | .null, _ => .ok false
  | .operand attr operator value, data => evaluateOperand_checked attr operator value data
  | .operator left right value, data =>
    match evaluate_rule_checked left data with
    | .error e => .error e
    | .ok leftEval =>
      match evaluate_rule_checked right data with
      | .error e => .error e
      | .ok rightEval => .ok (if value = kwAND then leftEval && rightEval else leftEval || rightEval)

/-- The left-leaning tree over the connectives `kws`, in order, all of whose
leaves are absent: `null` for no connective, and `Op(k, t, null)` for the tree
`t` of the connectives before `k`. -/
def absentTree (kws : List Str) : Node :=
  kws.foldl (fun t kw => Node.operator t Node.null kw) Node.null

/-! # Theorems -/

/-! ## Evaluation of one operand -/

theorem lessThan_string_number (s : Str) (x : JSNumber) :
    lessThan (JSValue.string s) (JSValue.number x) = numberLt (stringToNumber s) x := rfl

theorem lessThan_number_string (x : JSNumber) (s : Str) :
    lessThan (JSValue.number x) (JSValue.string s) = numberLt x (stringToNumber s) := rfl

theorem stripQuotes_eq_self (w : Str) (h : ∀ c ∈ w, c ≠ quote) : stripQuotes w = w := by
  unfold stripQuotes
  rw [List.filter_eq_self]
  intro c hc
  simpa using h c hc

theorem stripQuotes_quoted (w : Str) (h : ∀ c ∈ w, c ≠ quote) :
    stripQuotes (quote :: (w ++ [quote])) = w := by
  have h1 : stripQuotes (quote :: (w ++ [quote])) = stripQuotes w := by
    simp [stripQuotes, List.filter_cons]
  rw [h1, stripQuotes_eq_self w h]

/-- C1. On every record whose `age` is the integer `n` and whose `status` is
the string `s`, the rule `age>30ANDstatus='active'` evaluates to true exactly
when `n > 30` and `s` without its quote characters is `active`. -/
theorem scenario_age_status (data : Record) (n : Int) (s : Str)
    (hage : data "age".toList = .number (.fin n))
    (hstatus : data "status".toList = .string s) :
    evaluate_rule (parseRule "age>30ANDstatus='active'".toList) data
      = decide (30 < n ∧ stripQuotes s = "active".toList) := by
  have hp : parseRule "age>30ANDstatus='active'".toList
      = .operator (.operand "age".toList ['>'] "30".toList)
          (.operand "status".toList ['='] "'active'".toList) kwAND := by decide
  have h30 : stringToNumber (stripQuotes "30".toList) = .fin 30 := by decide
  have hact : stripQuotes "'active'".toList = "active".toList := by decide
  rw [hp]
  simp only [evaluate_rule, evaluateOperand, hage, hstatus, hact, lessThan_string_number, lessThan_number_string, h30,
    numberLt, strictEquals]
  by_cases h1 : 30 < n <;> by_cases h2 : stripQuotes s = "active".toList <;> simp [h1, h2]

/-- The three records of the scenario of C1: `{age: 35, status: "active"}`
gives true, `{age: 20, status: "active"}` and `{age: 35, status: "inactive"}`
give false. -/
theorem scenario_age_status_witness :
    (personRecord 35 "active".toList "age".toList = .number (.fin 35)
      ∧ personRecord 35 "active".toList "status".toList = .string "active".toList)
    ∧ evaluate_rule (parseRule "age>30ANDstatus='active'".toList)
        (personRecord 35 "active".toList)
      = decide ((30 : Int) < 35 ∧ stripQuotes "active".toList = "active".toList)
    ∧ evaluate_rule (parseRule "age>30ANDstatus='active'".toList)
        (personRecord 35 "active".toList) = true
    ∧ evaluate_rule (parseRule "age>30ANDstatus='active'".toList)
        (personRecord 20 "active".toList) = false
    ∧ evaluate_rule (parseRule "age>30ANDstatus='active'".toList)
        (personRecord 35 "inactive".toList) = false :=
  ⟨⟨by decide, by decide⟩,
    scenario_age_status (personRecord 35 "active".toList) 35 "active".toList
      (by decide) (by decide),
    by decide, by decide, by decide⟩

/-! ## Connectives and the split -/

theorem keywordAt_eq_none_iff (t : Str) :
    keywordAt t = none ↔ ¬ kwAND <+: t ∧ ¬ kwOR <+: t := by
  unfold keywordAt
  by_cases h1 : kwAND.isPrefixOf t = true
  · simp [h1, List.isPrefixOf_iff_prefix.mp h1]
  · by_cases h2 : kwOR.isPrefixOf t = true
    · simp [h1, h2, List.isPrefixOf_iff_prefix.mp h2]
    · have h1n : ¬ kwAND <+: t := fun h => h1 (List.isPrefixOf_iff_prefix.mpr h)
      have h2n : ¬ kwOR <+: t := fun h => h2 (List.isPrefixOf_iff_prefix.mpr h)
      simp [h1, h2, h1n, h2n]

theorem keywordAt_some (t kw : Str) (h : keywordAt t = some kw) :
    (kw = kwAND ∨ kw = kwOR) ∧ kw <+: t := by
  unfold keywordAt at h
  by_cases h1 : kwAND.isPrefixOf t = true
  · simp [h1] at h
    subst h
    exact ⟨Or.inl rfl, List.isPrefixOf_iff_prefix.mp h1⟩
  · by_cases h2 : kwOR.isPrefixOf t = true
    · simp [h1, h2] at h
      subst h
      exact ⟨Or.inr rfl, List.isPrefixOf_iff_prefix.mp h2⟩
    · simp [h1, h2] at h

theorem keywordAt_append_none (t u : Str) (h : keywordAt (t ++ u) = none) :
    keywordAt t = none := by
  rw [keywordAt_eq_none_iff] at h ⊢
  exact ⟨fun hp => h.1 (hp.trans (List.prefix_append t u)),
    fun hp => h.2 (hp.trans (List.prefix_append t u))⟩

theorem noKeyword_iff (s : Str) : NoKeyword s ↔ ∀ t, t <:+ s → keywordAt t = none := by
  constructor
  · intro h t ht
    rw [keywordAt_eq_none_iff]
    exact ⟨fun hp => h.1 (hp.isInfix.trans ht.isInfix),
      fun hp => h.2 (hp.isInfix.trans ht.isInfix)⟩
  · intro h
    constructor
    · rintro ⟨a, b, hab⟩
      have := h (kwAND ++ b) ⟨a, by rw [← hab]; simp⟩
      rw [keywordAt_eq_none_iff] at this
      exact this.1 (List.prefix_append _ _)
    · rintro ⟨a, b, hab⟩
      have := h (kwOR ++ b) ⟨a, by rw [← hab]; simp⟩
      rw [keywordAt_eq_none_iff] at this
      exact this.2 (List.prefix_append _ _)

theorem noKeyword_nil : NoKeyword [] := by
  rw [noKeyword_iff]
  intro t ht
  have : t = [] := List.eq_nil_of_suffix_nil ht
  subst this
  decide

theorem splitFrom_skip (x t acc : Str) :
    splitFrom (x ++ t) x.length acc = splitFrom t 0 acc := by
  induction x with
  | nil => simp
  | cons c x ih => simpa [splitFrom] using ih

theorem splitFrom_keyword (s kw t acc : Str) (hk : kw = kwAND ∨ kw = kwOR)
    (hs : s = kw ++ t) : splitFrom s 0 acc = acc.reverse :: kw :: splitFrom t 0 [] := by
  subst hs
  rcases hk with rfl | rfl
  · have h : keywordAt (kwAND ++ t) = some kwAND := by simp [keywordAt, kwAND]
    have h2 := splitFrom_skip ['N', 'D'] t []
    simp only [kwAND, List.cons_append, List.nil_append, List.length_cons, List.length_nil] at h h2 ⊢
    rw [splitFrom, h]
    simpa using h2
  · have h : keywordAt (kwOR ++ t) = some kwOR := by simp [keywordAt, kwAND, kwOR]
    have h2 := splitFrom_skip ['R'] t []
    simp only [kwOR, List.cons_append, List.nil_append, List.length_cons, List.length_nil] at h h2 ⊢
    rw [splitFrom, h]
    simpa using h2

/-- The parts of a split: a first segment, then connectives alternating with
segments, every segment free of connectives. -/
theorem splitFrom_parts (s : Str) : ∀ (skip : Nat) (acc : Str),
    (skip = 0 → ∀ d, d ≠ [] → d <:+ acc.reverse → keywordAt (d ++ s) = none) →
    (0 < skip → acc = []) →
    ∃ seg tail, splitFrom s skip acc = seg :: tail ∧ NoKeyword seg ∧ PartsTail tail := by
  induction s with
  | nil =>
    intro skip acc h0 h1
    refine ⟨acc.reverse, [], by simp [splitFrom], ?_, PartsTail.nil⟩
    rcases Nat.eq_zero_or_pos skip with hz | hp
    · rw [noKeyword_iff]
      intro t ht
      by_cases hnil : t = []
      · subst hnil; decide
      · simpa using h0 hz t hnil ht
    · rw [h1 hp]; exact noKeyword_nil
  | cons c rest ih =>
    intro skip acc h0 h1
    cases skip with
    | succ k =>
      have hacc : acc = [] := h1 (Nat.succ_pos k)
      subst hacc
      obtain ⟨seg, tail, e, hs, ht⟩ := ih k []
        (fun _ d hd hsuf => absurd (List.eq_nil_of_suffix_nil (by simpa using hsuf)) hd)
        (fun _ => rfl)
      exact ⟨seg, tail, by simpa [splitFrom] using e, hs, ht⟩
    | zero =>
      have hinv := h0 rfl
      have hseg : NoKeyword acc.reverse := by
        rw [noKeyword_iff]
        intro t ht
        by_cases hnil : t = []
        · subst hnil; decide
        · exact keywordAt_append_none t (c :: rest) (hinv t hnil ht)
      cases hk : keywordAt (c :: rest) with
      | some kw =>
        obtain ⟨seg, tail, e, hs, ht⟩ := ih (kw.length - 1) []
          (fun _ d hd hsuf => absurd (List.eq_nil_of_suffix_nil (by simpa using hsuf)) hd)
          (fun _ => rfl)
        refine ⟨acc.reverse, kw :: seg :: tail, ?_, hseg, ?_⟩
        · simp [splitFrom, hk, e]
        · exact PartsTail.cons kw seg tail (keywordAt_some _ _ hk).1 hs ht
      | none =>
        obtain ⟨seg, tail, e, hs, ht⟩ := ih 0 (c :: acc)
          (by
            intro _ d hd hsuf
            rw [List.reverse_cons] at hsuf
            rcases List.suffix_concat_iff.mp hsuf with hd0 | ⟨d1, hd1, hsuf1⟩
            · exact absurd hd0 hd
            · subst hd1
              by_cases hnil : d1 = []
              · subst hnil; simpa using hk
              · simpa using hinv d1 hnil hsuf1)
          (fun h => absurd h (Nat.lt_irrefl 0))
        exact ⟨seg, tail, by simp [splitFrom, hk, e], hs, ht⟩

theorem split_parts (s : Str) :
    ∃ seg tail, split s = seg :: tail ∧ NoKeyword seg ∧ PartsTail tail :=
  splitFrom_parts s 0 []
    (fun _ d hd hsuf => absurd (List.eq_nil_of_suffix_nil (by simpa using hsuf)) hd)
    (fun h => absurd h (Nat.lt_irrefl 0))

/-! ## The loop of `parseRule` -/

theorem findKeyword_none (t : Str) : ∀ (i : Nat),
    (∀ d, d <:+ t → keywordAt d = none) → findKeyword t i = none := by
  induction t with
  | nil => intro i _; rfl
  | cons c rest ih =>
    intro i h
    have h0 : keywordAt (c :: rest) = none := h _ (List.suffix_refl _)
    simp only [findKeyword, h0]
    exact ih (i + 1) (fun d hd => h d (hd.trans (List.suffix_cons c rest)))

/-- On a segment `test` fails whatever `lastIndex` is, and resets it. -/
theorem test_segment (seg : Str) (h : NoKeyword seg) (lastIndex : Nat) :
    test lastIndex seg = (false, 0) := by
  unfold test
  split
  · rfl
  · rw [findKeyword_none]
    intro d hd
    exact (noKeyword_iff seg).mp h d (hd.trans (List.drop_suffix lastIndex seg))

/-- On a connective `test` succeeds when `lastIndex` is 0. -/
theorem test_keyword (kw : Str) (h : kw = kwAND ∨ kw = kwOR) :
    (test 0 kw).1 = true := by
  rcases h with rfl | rfl <;> decide

theorem parseStep_first (seg : Str) (h : NoKeyword seg) :
    parseStep { lastIndex := 0, operatorStack := [], nodeStack := [] } seg
      = { lastIndex := 0, operatorStack := [], nodeStack := [segmentNode seg] } := by
  simp [parseStep, test_segment seg h, reduceStacks, segmentNode]

theorem parseStep_pair (t : Node) (kw seg : Str) (hk : kw = kwAND ∨ kw = kwOR)
    (h : NoKeyword seg) :
    parseStep (parseStep { lastIndex := 0, operatorStack := [], nodeStack := [t] } kw) seg
      = { lastIndex := 0, operatorStack := [],
          nodeStack := [Node.operator t (segmentNode seg) kw] } := by
  simp [parseStep, test_segment seg h, test_keyword kw hk, reduceStacks, segmentNode]

theorem foldl_parseStep_tail (tail : List Str) (h : PartsTail tail) : ∀ (t : Node),
    tail.foldl parseStep { lastIndex := 0, operatorStack := [], nodeStack := [t] }
      = { lastIndex := 0, operatorStack := [], nodeStack := [foldTail t tail] } := by
  induction h with
  | nil => intro t; rfl
  | cons kw seg rest hk hseg _ ih =>
    intro t
    rw [List.foldl_cons, List.foldl_cons, parseStep_pair t kw seg hk hseg, ih]
    rfl

/-- The state of `parseRule` at the end of its loop: the connective stack is
empty and the node stack holds one entry, the left fold of the parts. -/
theorem parseLoop_eq (ruleString : Str) :
    parseLoop ruleString = ParseState.mk 0 []
      [foldParts (split (ruleString.filter (fun c => !isSpace c)))] := by
  obtain ⟨seg, tail, e, hseg, htail⟩ := split_parts (ruleString.filter (fun c => !isSpace c))
  unfold parseLoop
  simp only [e, List.foldl_cons, parseStep_first seg hseg, foldl_parseStep_tail tail htail]
  rfl

/-- The method `parseRule` returns the left fold of the parts of the rule. -/
theorem parseRule_eq_foldParts (ruleString : Str) :
    parseRule ruleString = foldParts (split (ruleString.filter (fun c => !isSpace c))) := by
  simp [parseRule, parseLoop_eq]

/-! ## The operand pattern -/

theorem star_max {α : Type} (p : Char → Bool) (k : Str → Str → Option α) (rest : Str) (r : α)
    (hrest : ∀ c rest1, rest = c :: rest1 → p c = false) (taken : Str) :
    ∀ (acc : Str), (∀ c ∈ taken, p c = true) →
      k (acc.reverse ++ taken) rest = some r → star p k acc (taken ++ rest) = some r := by
  induction taken with
  | nil =>
    intro acc _ hk
    cases rest with
    | nil => simpa [star] using hk
    | cons c rest1 =>
      have hc := hrest c rest1 rfl
      simpa [star, hc] using hk
  | cons c taken ih =>
    intro acc hall hk
    have hc : p c = true := hall c (List.mem_cons_self c taken)
    have h1 : star p k (c :: acc) (taken ++ rest) = some r := by
      apply ih (c :: acc) (fun x hx => hall x (List.mem_cons_of_mem c hx))
      simpa using hk
    simp [star, hc, h1]

theorem plus_max {α : Type} (p : Char → Bool) (k : Str → Str → Option α) (rest : Str) (r : α)
    (hrest : ∀ c rest1, rest = c :: rest1 → p c = false) (taken : Str) (hne : taken ≠ [])
    (hall : ∀ c ∈ taken, p c = true) (hk : k taken rest = some r) :
    plus p k (taken ++ rest) = some r := by
  cases taken with
  | nil => exact absurd rfl hne
  | cons c taken =>
    have hc : p c = true := hall c (List.mem_cons_self c taken)
    simp only [List.cons_append, plus, hc, if_true]
    apply star_max p k rest r hrest taken [c] (fun x hx => hall x (List.mem_cons_of_mem c hx))
    simpa using hk

theorem star_inv {α : Type} (p : Char → Bool) (k : Str → Str → Option α) (r : α) (s : Str) :
    ∀ (acc : Str), star p k acc s = some r →
      ∃ taken rest, s = taken ++ rest ∧ (∀ c ∈ taken, p c = true) ∧
        k (acc.reverse ++ taken) rest = some r := by
  induction s with
  | nil =>
    intro acc h
    exact ⟨[], [], rfl, by simp, by simpa [star] using h⟩
  | cons c rest ih =>
    intro acc h
    by_cases hc : p c = true
    · cases h1 : star p k (c :: acc) rest with
      | some r1 =>
        have hr : r1 = r := by simpa [star, hc, h1] using h
        subst hr
        obtain ⟨taken, rest1, e, hall, hk⟩ := ih (c :: acc) h1
        refine ⟨c :: taken, rest1, by simp [e], ?_, by simpa using hk⟩
        intro x hx
        rcases List.mem_cons.mp hx with rfl | hx
        · exact hc
        · exact hall x hx
      | none =>
        refine ⟨[], c :: rest, rfl, by simp, ?_⟩
        simpa [star, hc, h1] using h
    · refine ⟨[], c :: rest, rfl, by simp, ?_⟩
      simpa [star, hc] using h

theorem plus_inv {α : Type} (p : Char → Bool) (k : Str → Str → Option α) (r : α) (s : Str)
    (h : plus p k s = some r) :
    ∃ taken rest, taken ≠ [] ∧ s = taken ++ rest ∧ (∀ c ∈ taken, p c = true) ∧
      k taken rest = some r := by
  cases s with
  | nil => simp [plus] at h
  | cons c rest =>
    by_cases hc : p c = true
    · simp only [plus, hc, if_true] at h
      obtain ⟨taken, rest1, e, hall, hk⟩ := star_inv p k r rest [c] h
      refine ⟨c :: taken, rest1, by simp, by simp [e], ?_, by simpa using hk⟩
      intro x hx
      rcases List.mem_cons.mp hx with rfl | hx
      · exact hc
      · exact hall x hx
    · simp [plus, hc] at h

theorem quote_toNat : quote.toNat = 39 := by decide

theorem isLower_false_of_isCmp (c : Char) (h : isCmp c = true) : isLower c = false := by
  simp only [isCmp, Bool.or_eq_true, beq_iff_eq] at h
  simp only [isLower, Bool.and_eq_false_imp, decide_eq_true_eq, decide_eq_false_iff_not]
  omega

theorem isCmp_false_of_isDigit (c : Char) (h : isDigit c = true) : isCmp c = false := by
  simp only [isDigit, Bool.and_eq_true, decide_eq_true_eq] at h
  simp only [isCmp, Bool.or_eq_false_iff, beq_eq_false_iff_ne]
  omega

theorem isCmp_quote : isCmp quote = false := by decide

theorem isDigit_quote : isDigit quote = false := by decide

theorem isAlpha_quote : isAlpha quote = false := by decide

theorem isLower_quote : isLower quote = false := by decide

theorem ne_quote_of_isDigit (c : Char) (h : isDigit c = true) : c ≠ quote := by
  intro e; subst e; simp [isDigit_quote] at h

theorem ne_quote_of_isAlpha (c : Char) (h : isAlpha c = true) : c ≠ quote := by
  intro e; subst e; simp [isAlpha_quote] at h

theorem ne_quote_of_isLower (c : Char) (h : isLower c = true) : c ≠ quote := by
  intro e; subst e; simp [isLower_quote] at h

theorem ne_quote_of_isCmp (c : Char) (h : isCmp c = true) : c ≠ quote := by
  intro e; subst e; simp [isCmp_quote] at h

/-- The first character of a literal is a digit or the quote. -/
theorem isLiteral_head (v : Str) (h : IsLiteral v) :
    ∃ x rest, v = x :: rest ∧ (isDigit x = true ∨ x = quote) := by
  rcases h with ⟨hne, hall⟩ | ⟨w, _, _, rfl⟩
  · cases v with
    | nil => exact absurd rfl hne
    | cons x rest => exact ⟨x, rest, rfl, Or.inl (hall x (List.mem_cons_self x rest))⟩
  · exact ⟨quote, w ++ [quote], rfl, Or.inr rfl⟩

/-- The literal group matches a literal that is not followed by a digit. -/
theorem literalAt_max {α : Type} (k : Str → Str → Option α) (v post : Str) (r : α)
    (hv : IsLiteral v) (hpost : ∀ c rest1, post = c :: rest1 → isDigit c = false)
    (hk : k v post = some r) : literalAt k (v ++ post) = some r := by
  rcases hv with ⟨hne, hall⟩ | ⟨w, hne, hall, rfl⟩
  · simp [literalAt, plus_max isDigit k post r hpost v hne hall hk]
  · have h1 : plus isDigit k (quote :: (w ++ [quote]) ++ post) = none := by
      simp [plus, isDigit_quote]
    have h2 : plus isAlpha (fun w r =>
          match r with
          | [] => none
          | q2 :: r2 => if q2 = quote then k (quote :: (w ++ [quote])) r2 else none)
        (w ++ quote :: post) = some r := by
      apply plus_max isAlpha _ (quote :: post) r _ w hne hall
      · simpa using hk
      · intro c rest1 e
        simp only [List.cons.injEq] at e
        rw [← e.1]; exact isAlpha_quote
    simp only [literalAt, h1]
    simpa using h2

/-- The operand pattern matches a triple of the grammar that is not followed
by a digit, and captures its three components. -/
theorem operandAt_triple (a c v post : Str) (h : IsTriple a c v)
    (hpost : ∀ x rest1, post = x :: rest1 → isDigit x = false) :
    operandAt (a ++ (c ++ (v ++ post))) = some ⟨a, c, v⟩ := by
  obtain ⟨ha, hla, hc, hlc, hv⟩ := h
  unfold operandAt
  apply plus_max isLower _ (c ++ (v ++ post)) _ _ a ha hla
  · apply plus_max isCmp _ (v ++ post) _ _ c hc hlc
    · exact literalAt_max _ v post _ hv hpost rfl
    · intro x rest1 e
      obtain ⟨y, vr, hy, hy2⟩ := isLiteral_head v hv
      rw [hy] at e
      simp only [List.cons_append, List.cons.injEq] at e
      rw [← e.1]
      rcases hy2 with hd | rfl
      · exact isCmp_false_of_isDigit y hd
      · exact isCmp_quote
  · intro x rest1 e
    cases c with
    | nil => exact absurd rfl hc
    | cons y cr =>
      simp only [List.cons_append, List.cons.injEq] at e
      rw [← e.1]
      exact isLower_false_of_isCmp y (hlc y (List.mem_cons_self y cr))

theorem literalAt_inv {α : Type} (k : Str → Str → Option α) (r : α) (s : Str)
    (h : literalAt k s = some r) :
    ∃ v rest, s = v ++ rest ∧ IsLiteral v ∧ k v rest = some r := by
  unfold literalAt at h
  cases h1 : plus isDigit k s with
  | some r1 =>
    have hr : r1 = r := by simpa [h1] using h
    subst hr
    obtain ⟨taken, rest, hne, e, hall, hk⟩ := plus_inv isDigit k r1 s h1
    exact ⟨taken, rest, e, Or.inl ⟨hne, hall⟩, hk⟩
  | none =>
    simp only [h1] at h
    cases s with
    | nil => simp at h
    | cons q rest =>
      by_cases hq : q = quote
      · subst hq
        simp only [if_true] at h
        obtain ⟨w, rest1, hne, e, hall, hk⟩ := plus_inv isAlpha _ r rest h
        cases rest1 with
        | nil => simp at hk
        | cons q2 r2 =>
          by_cases hq2 : q2 = quote
          · subst hq2
            simp only [if_true] at hk
            exact ⟨quote :: (w ++ [quote]), r2, by simp [e], Or.inr ⟨w, hne, hall, rfl⟩, hk⟩
          · simp [hq2] at hk
      · simp [hq] at h

/-- Every match of the operand pattern is a triple of the grammar at the head
of the input. -/
theorem operandAt_inv (s : Str) (m : OperandMatch) (h : operandAt s = some m) :
    IsTriple m.attr m.operator m.value ∧
      ∃ post, s = m.attr ++ (m.operator ++ (m.value ++ post)) := by
  unfold operandAt at h
  obtain ⟨a, r1, ha, e1, hla, h1⟩ := plus_inv isLower _ m s h
  obtain ⟨c, r2, hc, e2, hlc, h2⟩ := plus_inv isCmp _ m r1 h1
  obtain ⟨v, r3, e3, hv, h3⟩ := literalAt_inv _ m r2 h2
  simp only [Option.some.injEq] at h3
  subst h3
  exact ⟨⟨ha, hla, hc, hlc, hv⟩, r3, by rw [e1, e2, e3]⟩

/-! ## The node of a segment -/

theorem operandAt_not_lower (x : Char) (rest : Str) (h : isLower x = false) :
    operandAt (x :: rest) = none := by
  simp [operandAt, plus, h]

/-- Characters before the operand that are not lower-case letters are passed
over, and the node of the segment is the operand that follows them. -/
theorem segmentNode_triple (pre a c v post : Str) (hpre : ∀ x ∈ pre, isLower x = false)
    (h : IsTriple a c v) (hpost : ∀ x rest1, post = x :: rest1 → isDigit x = false) :
    segmentNode (pre ++ (a ++ (c ++ (v ++ post)))) = .operand a c v := by
  induction pre with
  | nil =>
    have hm := operandAt_triple a c v post h hpost
    obtain ⟨ha, _⟩ := h
    cases a with
    | nil => exact absurd rfl ha
    | cons y a1 =>
      simp only [List.nil_append, List.cons_append] at hm ⊢
      simp [segmentNode, matchAll, matchAllFrom, hm, buildOperandAST]
  | cons x pre ih =>
    have hx : isLower x = false := hpre x (List.mem_cons_self x pre)
    have ih1 := ih (fun y hy => hpre y (List.mem_cons_of_mem x hy))
    simp only [segmentNode, matchAll] at ih1
    simp only [segmentNode, matchAll, List.cons_append, matchAllFrom,
      operandAt_not_lower x _ hx]
    exact ih1

theorem matchAllFrom_inv (s : Str) (m : OperandMatch) (ms : List OperandMatch)
    (h : matchAllFrom s 0 = m :: ms) :
    IsTriple m.attr m.operator m.value ∧
      ∃ pre post, s = pre ++ (m.attr ++ (m.operator ++ (m.value ++ post))) := by
  induction s with
  | nil => simp [matchAllFrom] at h
  | cons x rest ih =>
    cases hx : operandAt (x :: rest) with
    | some m1 =>
      simp only [matchAllFrom, hx, List.cons.injEq] at h
      obtain ⟨ht, post, e⟩ := operandAt_inv _ _ hx
      rw [h.1] at ht e
      exact ⟨ht, [], post, by simpa using e⟩
    | none =>
      simp only [matchAllFrom, hx] at h
      obtain ⟨ht, pre, post, e⟩ := ih h
      exact ⟨ht, x :: pre, post, by simp [e]⟩

/-- The node of a segment is `null` or an operand of the grammar that occurs
in the segment. -/
theorem segmentNode_cases (seg : Str) :
    (matchAll seg = [] ∧ segmentNode seg = .null) ∨
    (∃ m : OperandMatch, matchAll seg ≠ [] ∧
      segmentNode seg = .operand m.attr m.operator m.value ∧
      IsTriple m.attr m.operator m.value ∧
      ∃ pre post, seg = pre ++ (m.attr ++ (m.operator ++ (m.value ++ post)))) := by
  cases hm : matchAll seg with
  | nil => exact Or.inl ⟨rfl, by simp [segmentNode, hm, buildOperandAST]⟩
  | cons m ms =>
    obtain ⟨ht, pre, post, e⟩ := matchAllFrom_inv seg m ms hm
    exact Or.inr ⟨m, by simp, by simp [segmentNode, hm, buildOperandAST], ht, pre, post, e⟩

theorem noKeyword_of_infix (s t : Str) (h : NoKeyword t) (hst : s <:+: t) : NoKeyword s :=
  ⟨fun hk => h.1 (hk.trans hst), fun hk => h.2 (hk.trans hst)⟩

theorem not_noKeyword_kwAND : ¬ NoKeyword kwAND := fun h => h.1 (List.infix_refl _)

theorem not_noKeyword_kwOR : ¬ NoKeyword kwOR := fun h => h.2 (List.infix_refl _)

/-! ## Rules without any operand (C4) -/

theorem isKeyword_keyword (kw : Str) (h : kw = kwAND ∨ kw = kwOR) : isKeyword kw = true := by
  rcases h with rfl | rfl <;> decide

theorem isKeyword_segment (seg : Str) (h : NoKeyword seg) : isKeyword seg = false := by
  cases hk : isKeyword seg with
  | false => rfl
  | true =>
    simp only [isKeyword, Bool.or_eq_true, beq_iff_eq] at hk
    rcases hk with e | e
    · exact absurd (e ▸ h) not_noKeyword_kwAND
    · exact absurd (e ▸ h) not_noKeyword_kwOR

theorem foldTail_no_operand (tail : List Str) (hp : PartsTail tail)
    (h : ∀ part ∈ tail, matchAll part = []) :
    ∀ (t : Node), hasOperand t = false → hasOperand (foldTail t tail) = false := by
  induction hp with
  | nil => intro t ht; exact ht
  | cons kw seg rest _ _ _ ih =>
    intro t ht
    have hs : matchAll seg = [] := h seg (by simp)
    simp only [foldTail]
    apply ih (fun part hp => h part (by simp [hp]))
    simp [hasOperand, ht, segmentNode, hs, buildOperandAST]

/-- When no segment has an operand match, the fold adds one operator node with
an absent right child per connective. -/
theorem foldTail_absent (tail : List Str) (hp : PartsTail tail)
    (h : ∀ part ∈ tail, matchAll part = []) : ∀ (t : Node),
    foldTail t tail
      = (tail.filter isKeyword).foldl (fun t kw => Node.operator t Node.null kw) t := by
  induction hp with
  | nil => intro t; rfl
  | cons kw seg rest hk hseg _ ih =>
    intro t
    have hs : matchAll seg = [] := h seg (by simp)
    have hnode : segmentNode seg = Node.null := by simp [segmentNode, hs, buildOperandAST]
    have hkw := isKeyword_keyword kw hk
    have hsg := isKeyword_segment seg hseg
    simp only [foldTail, hnode, List.filter_cons, hkw, hsg, if_true, List.foldl_cons]
    simpa using ih (fun part hp => h part (by simp [hp])) (Node.operator t Node.null kw)

/-- When no segment has an operand match and there is a connective, the fold
ends in an operator node with an absent right child. -/
theorem foldTail_absent_root (tail : List Str) (hp : PartsTail tail)
    (h : ∀ part ∈ tail, matchAll part = []) : ∀ (t : Node), tail ≠ [] →
    ∃ left kw, (kw = kwAND ∨ kw = kwOR) ∧ foldTail t tail = Node.operator left Node.null kw := by
  induction hp with
  | nil => intro t hne; exact absurd rfl hne
  | cons kw seg rest hk _ hrest ih =>
    intro t _
    have hs : matchAll seg = [] := h seg (by simp)
    have hnode : segmentNode seg = Node.null := by simp [segmentNode, hs, buildOperandAST]
    by_cases hr : rest = []
    · subst hr
      exact ⟨t, kw, hk, by simp [foldTail, hnode]⟩
    · obtain ⟨left, k2, hk2, e⟩ := ih (fun part hp => h part (by simp [hp]))
        (Node.operator t Node.null kw) hr
      exact ⟨left, k2, hk2, by simpa [foldTail, hnode] using e⟩

/-- C4, as the code behaves.  When no part of the rule matches the operand
pattern, `parseRule` returns the left-leaning tree over the connectives of the
rule whose leaves are all absent: a value that holds no operand node, which is
`null` when the rule has no connective (a single part) and otherwise an
operator node, with an absent right child. -/
theorem parseRule_no_operand (ruleString : Str)
    (h : ∀ part ∈ split (trimmed ruleString), matchAll part = []) :
    parseRule ruleString = absentTree ((split (trimmed ruleString)).filter isKeyword) ∧
    hasOperand (parseRule ruleString) = false ∧
    (∀ leaf ∈ leaves (parseRule ruleString), leaf = Node.null) ∧
    ((split (trimmed ruleString)).length = 1 → parseRule ruleString = Node.null) ∧
    ((split (trimmed ruleString)).length ≠ 1 →
      ∃ left kw, (kw = kwAND ∨ kw = kwOR) ∧
        parseRule ruleString = Node.operator left Node.null kw) := by
  obtain ⟨seg, tail, e, hsegno, htail⟩ := split_parts (trimmed ruleString)
  have hseg : matchAll seg = [] := h seg (by simp [e])
  have hnode : segmentNode seg = Node.null := by simp [segmentNode, hseg, buildOperandAST]
  have htl : ∀ part ∈ tail, matchAll part = [] := fun part hp => h part (by simp [e, hp])
  have hparse : parseRule ruleString = foldTail Node.null tail := by
    rw [parseRule_eq_foldParts]
    change foldParts (split (trimmed ruleString)) = _
    rw [e]
    simp only [foldParts, hnode]
  have hno : hasOperand (parseRule ruleString) = false := by
    rw [hparse]
    exact foldTail_no_operand tail htail htl Node.null rfl
  have hleaf : ∀ n : Node, hasOperand n = false → ∀ leaf ∈ leaves n, leaf = Node.null := by
    intro n
    induction n with
    | null => intro _ leaf hl; simpa [leaves] using hl
    | operand a o v => intro hn; simp [hasOperand] at hn
    | operator l r v ihl ihr =>
      intro hn leaf hl
      simp only [hasOperand, Bool.or_eq_false_iff] at hn
      simp only [leaves, List.mem_append] at hl
      rcases hl with hl | hl
      · exact ihl hn.1 leaf hl
      · exact ihr hn.2 leaf hl
  refine ⟨?_, hno, hleaf _ hno, ?_, ?_⟩
  · rw [hparse, foldTail_absent tail htail htl, e]
    simp [absentTree, List.filter_cons, isKeyword_segment seg hsegno]
  · intro hlen
    have ht : tail = [] := by simpa [e] using hlen
    rw [hparse, ht]
    rfl
  · intro hlen
    have ht : tail ≠ [] := by
      intro ht
      apply hlen
      simp [e, ht]
    rw [hparse]
    exact foldTail_absent_root tail htail htl Node.null ht

/-- The rules `ANDAND`, the empty rule and `xyz` have no operand: the first
parses to an operator node with absent children, the other two to `null`. -/
theorem parseRule_no_operand_witness :
    (∀ part ∈ split (trimmed "ANDAND".toList), matchAll part = []) ∧
    (parseRule "ANDAND".toList
        = absentTree ((split (trimmed "ANDAND".toList)).filter isKeyword) ∧
      hasOperand (parseRule "ANDAND".toList) = false ∧
      (∀ leaf ∈ leaves (parseRule "ANDAND".toList), leaf = Node.null) ∧
      ((split (trimmed "ANDAND".toList)).length = 1 → parseRule "ANDAND".toList = Node.null) ∧
      ((split (trimmed "ANDAND".toList)).length ≠ 1 →
        ∃ left kw, (kw = kwAND ∨ kw = kwOR) ∧
          parseRule "ANDAND".toList = Node.operator left Node.null kw)) ∧
    absentTree ((split (trimmed "ANDAND".toList)).filter isKeyword)
      = Node.operator (Node.operator Node.null Node.null kwAND) Node.null kwAND ∧
    (split (trimmed "ANDAND".toList)).length = 5 ∧
    parseRule [] = Node.null ∧ parseRule "xyz".toList = Node.null :=
  ⟨by decide, parseRule_no_operand "ANDAND".toList (by decide), by decide, by decide,
    by decide, by decide⟩

/-- C4, counterexample.  On `ANDAND`, which has no operand, `parseRule` does
not fail: it returns an operator node. -/
theorem parseRule_malformed_returns :
    parseRule "ANDAND".toList
      = Node.operator (Node.operator Node.null Node.null kwAND) Node.null kwAND := by
  decide

/-! ## Children of operator nodes (C10) -/

theorem segmentNode_isNull (seg : Str) (h : matchAll seg ≠ []) :
    (segmentNode seg).isNull = false ∧ childrenPresent (segmentNode seg) = true := by
  rcases segmentNode_cases seg with ⟨h0, _⟩ | ⟨m, _, e, _⟩
  · exact absurd h0 h
  · simp [e, Node.isNull, childrenPresent]

theorem foldTail_childrenPresent (tail : List Str) (hp : PartsTail tail)
    (h : ∀ part ∈ tail, part ≠ kwAND → part ≠ kwOR → matchAll part ≠ []) :
    ∀ (t : Node), t.isNull = false → childrenPresent t = true →
      (foldTail t tail).isNull = false ∧ childrenPresent (foldTail t tail) = true := by
  induction hp with
  | nil => intro t h1 h2; exact ⟨h1, h2⟩
  | cons kw seg rest _ hseg _ ih =>
    intro t h1 h2
    have hs : matchAll seg ≠ [] := h seg (by simp)
      (fun e => not_noKeyword_kwAND (e ▸ hseg)) (fun e => not_noKeyword_kwOR (e ▸ hseg))
    obtain ⟨h3, h4⟩ := segmentNode_isNull seg hs
    simp only [foldTail]
    apply ih (fun part hp => h part (by simp [hp]))
    · rfl
    · simp [childrenPresent, h1, h2, h3, h4]

/-- C10, as the code behaves.  For every well-formed rule, the tree that
`parseRule` returns is present and every operator node in it has both its
children present. -/
theorem parseRule_children_present (ruleString : Str) (h : WellFormed ruleString) :
    (parseRule ruleString).isNull = false ∧ childrenPresent (parseRule ruleString) = true := by
  obtain ⟨seg, tail, e, hseg, htail⟩ := split_parts (trimmed ruleString)
  have hs : matchAll seg ≠ [] := h seg (by simp [e])
    (fun e1 => not_noKeyword_kwAND (e1 ▸ hseg)) (fun e1 => not_noKeyword_kwOR (e1 ▸ hseg))
  obtain ⟨h3, h4⟩ := segmentNode_isNull seg hs
  rw [parseRule_eq_foldParts]
  change (foldParts (split (trimmed ruleString))).isNull = false ∧
    childrenPresent (foldParts (split (trimmed ruleString))) = true
  rw [e]
  simp only [foldParts]
  exact foldTail_childrenPresent tail htail (fun part hp => h part (by simp [e, hp])) _ h3 h4

/-- The rule `a>1ANDb>2ORc>3` is well formed and its tree has all children
present. -/
theorem parseRule_children_present_witness :
    WellFormed "a>1ANDb>2ORc>3".toList ∧
    ((parseRule "a>1ANDb>2ORc>3".toList).isNull = false ∧
      childrenPresent (parseRule "a>1ANDb>2ORc>3".toList) = true) :=
  ⟨by unfold WellFormed; decide,
    parseRule_children_present "a>1ANDb>2ORc>3".toList (by unfold WellFormed; decide)⟩

/-- C10, counterexample.  For `a>1AND` the method `parseRule` returns an AST
whose root is an operator node with an absent right child. -/
theorem parseRule_absent_child :
    parseRule "a>1AND".toList
        = Node.operator (Node.operand ['a'] ['>'] ['1']) Node.null kwAND ∧
      (parseRule "a>1AND".toList).isNull = false ∧
      childrenPresent (parseRule "a>1AND".toList) = false := by
  decide

/-! ## The split of a text given by its segments -/

theorem splitFrom_segment (seg t : Str) : ∀ (acc : Str),
    (∀ d, d ≠ [] → d <:+ seg → keywordAt (d ++ t) = none) →
    splitFrom (seg ++ t) 0 acc = splitFrom t 0 (seg.reverse ++ acc) := by
  induction seg with
  | nil => intro acc _; simp
  | cons x seg ih =>
    intro acc h
    have h0 : keywordAt (x :: (seg ++ t)) = none := by
      simpa using h (x :: seg) (by simp) (List.suffix_refl _)
    have h1 := ih (x :: acc) (fun d hd hsuf => h d hd (hsuf.trans (List.suffix_cons x seg)))
    have e : splitFrom (x :: (seg ++ t)) 0 acc = splitFrom (seg ++ t) 0 (x :: acc) := by
      rw [splitFrom, h0]
    rw [List.cons_append, e, h1]
    simp

theorem keywordAt_straddle (seg : Str) (h : SafeSegment seg) (d u : Str) (hd : d ≠ [])
    (hsuf : d <:+ seg) : keywordAt (d ++ u) = none := by
  obtain ⟨hno, hlast⟩ := h
  have hdl : ∀ x, d.getLast? = some x → x ≠ 'A' ∧ x ≠ 'N' ∧ x ≠ 'O' := by
    intro x hx
    obtain ⟨p, rfl⟩ := hsuf
    apply hlast x
    rw [List.getLast?_append_of_ne_nil _ hd]
    exact hx
  rw [keywordAt_eq_none_iff]
  constructor
  · rintro ⟨w, hw⟩
    rcases List.append_eq_append_iff.mp hw with ⟨a1, e1, _⟩ | ⟨c1, e1, _⟩
    · exact hno.1 ((List.IsPrefix.isInfix (⟨a1, e1.symm⟩ : kwAND <+: d)).trans hsuf.isInfix)
    · rcases d with _ | ⟨x1, _ | ⟨x2, _ | ⟨x3, d3⟩⟩⟩
      · exact hd rfl
      · simp [kwAND] at e1
        have := hdl x1 (by simp)
        exact this.1 e1.1.symm
      · simp [kwAND] at e1
        have := hdl x2 (by simp)
        exact this.2.1 e1.2.1.symm
      · simp [kwAND] at e1
        obtain ⟨e1, e2, e3, e4, _⟩ := e1
        subst e1 e2 e3 e4
        exact hno.1 (List.IsSuffix.isInfix hsuf)
  · rintro ⟨w, hw⟩
    rcases List.append_eq_append_iff.mp hw with ⟨a1, e1, _⟩ | ⟨c1, e1, _⟩
    · exact hno.2 ((List.IsPrefix.isInfix (⟨a1, e1.symm⟩ : kwOR <+: d)).trans hsuf.isInfix)
    · rcases d with _ | ⟨x1, _ | ⟨x2, d2⟩⟩
      · exact hd rfl
      · simp [kwOR] at e1
        have := hdl x1 (by simp)
        exact this.2.2 e1.1.symm
      · simp [kwOR] at e1
        obtain ⟨e1, e2, e3, _⟩ := e1
        subst e1 e2 e3
        exact hno.2 (List.IsSuffix.isInfix hsuf)

theorem split_single (seg : Str) (h : NoKeyword seg) : split seg = [seg] := by
  have h1 := splitFrom_segment seg [] [] (fun d _ hsuf => by
    simpa using (noKeyword_iff seg).mp h d hsuf)
  simp only [List.append_nil] at h1
  simp [split, h1, splitFrom]

theorem split_joinParts (rest : List (Str × Str)) : ∀ (seg0 : Str), SafeSegment seg0 →
    (∀ p ∈ rest, (p.1 = kwAND ∨ p.1 = kwOR) ∧ SafeSegment p.2) →
    split (joinParts seg0 rest) = seg0 :: listParts rest := by
  induction rest with
  | nil => intro seg0 h0 _; simpa [joinParts, listParts] using split_single seg0 h0.1
  | cons p rest ih =>
    intro seg0 h0 hrest
    obtain ⟨kw, seg⟩ := p
    have hp := hrest (kw, seg) (List.mem_cons_self _ _)
    have ih1 := ih seg hp.2 (fun q hq => hrest q (List.mem_cons_of_mem _ hq))
    simp only [split] at ih1 ⊢
    simp only [joinParts, listParts]
    rw [splitFrom_segment seg0 _ [] (fun d hd hsuf => keywordAt_straddle seg0 h0 d _ hd hsuf),
      splitFrom_keyword _ kw (joinParts seg rest) _ hp.1 rfl, ih1]
    simp

/-! ## Parsing a text given by its segments -/

theorem parseRule_of_trimmed (s seg0 : Str) (rest : List (Str × Str))
    (he : trimmed s = joinParts seg0 rest) (h0 : SafeSegment seg0)
    (hrest : ∀ p ∈ rest, (p.1 = kwAND ∨ p.1 = kwOR) ∧ SafeSegment p.2) :
    parseRule s = foldTail (segmentNode seg0) (listParts rest) := by
  rw [parseRule_eq_foldParts]
  change foldParts (split (trimmed s)) = _
  rw [he, split_joinParts rest seg0 h0 hrest]
  rfl

theorem foldTail_listParts_chain (f : OperandMatch → Str) (rest : List (Str × OperandMatch))
    (hf : ∀ p ∈ rest, segmentNode (f p.2) = p.2.node) : ∀ (t : Node),
    foldTail t (listParts (rest.map (fun p => (p.1, f p.2)))) = chain t rest := by
  induction rest with
  | nil => intro t; rfl
  | cons p rest ih =>
    intro t
    obtain ⟨kw, m⟩ := p
    have h1 : segmentNode (f m) = m.node := hf (kw, m) (List.mem_cons_self _ _)
    simp only [List.map_cons, listParts, foldTail, chain, h1]
    exact ih (fun q hq => hf q (List.mem_cons_of_mem _ hq)) _

/-! ## Characters of the grammar -/

theorem isSpace_false_of_isLower (x : Char) (h : isLower x = true) : isSpace x = false := by
  simp only [isLower, Bool.and_eq_true, decide_eq_true_eq] at h
  simp only [isSpace, Bool.or_eq_false_iff, beq_eq_false_iff_ne, Bool.and_eq_false_imp,
    decide_eq_true_eq, decide_eq_false_iff_not]
  omega

theorem isSpace_false_of_isAlpha (x : Char) (h : isAlpha x = true) : isSpace x = false := by
  simp only [isAlpha, Bool.or_eq_true, Bool.and_eq_true, decide_eq_true_eq] at h
  simp only [isSpace, Bool.or_eq_false_iff, beq_eq_false_iff_ne, Bool.and_eq_false_imp,
    decide_eq_true_eq, decide_eq_false_iff_not]
  omega

theorem isSpace_false_of_isDigit (x : Char) (h : isDigit x = true) : isSpace x = false := by
  simp only [isDigit, Bool.and_eq_true, decide_eq_true_eq] at h
  simp only [isSpace, Bool.or_eq_false_iff, beq_eq_false_iff_ne, Bool.and_eq_false_imp,
    decide_eq_true_eq, decide_eq_false_iff_not]
  omega

theorem isSpace_false_of_isCmp (x : Char) (h : isCmp x = true) : isSpace x = false := by
  simp only [isCmp, Bool.or_eq_true, beq_iff_eq] at h
  simp only [isSpace, Bool.or_eq_false_iff, beq_eq_false_iff_ne, Bool.and_eq_false_imp,
    decide_eq_true_eq, decide_eq_false_iff_not]
  omega

theorem isSpace_quote : isSpace quote = false := by decide

theorem trimmed_eq_self (s : Str) (h : ∀ x ∈ s, isSpace x = false) : trimmed s = s := by
  unfold trimmed
  rw [List.filter_eq_self]
  intro x hx
  simp [h x hx]

theorem trimmed_append (s t : Str) : trimmed (s ++ t) = trimmed s ++ trimmed t := by
  simp [trimmed]

theorem isLiteral_noSpace (v : Str) (h : IsLiteral v) : ∀ x ∈ v, isSpace x = false := by
  rcases h with ⟨_, hall⟩ | ⟨w, _, hall, rfl⟩
  · exact fun x hx => isSpace_false_of_isDigit x (hall x hx)
  · intro x hx
    simp only [List.mem_cons, List.mem_append, List.mem_singleton, List.not_mem_nil,
      or_false] at hx
    rcases hx with rfl | hx | rfl
    · exact isSpace_quote
    · exact isSpace_false_of_isAlpha x (hall x hx)
    · exact isSpace_quote

theorem isTriple_noSpace (a c v : Str) (h : IsTriple a c v) :
    ∀ x ∈ a ++ (c ++ v), isSpace x = false := by
  obtain ⟨_, hla, _, hlc, hv⟩ := h
  intro x hx
  simp only [List.mem_append] at hx
  rcases hx with hx | hx | hx
  · exact isSpace_false_of_isLower x (hla x hx)
  · exact isSpace_false_of_isCmp x (hlc x hx)
  · exact isLiteral_noSpace v hv x hx

/-- A literal ends in a digit or in the quote. -/
theorem isLiteral_last (v : Str) (h : IsLiteral v) :
    ∃ body x, v = body ++ [x] ∧ (isDigit x = true ∨ x = quote) := by
  rcases h with ⟨hne, hall⟩ | ⟨w, _, _, rfl⟩
  · refine ⟨v.dropLast, v.getLast hne, (List.dropLast_append_getLast hne).symm, Or.inl ?_⟩
    exact hall _ (List.getLast_mem hne)
  · exact ⟨quote :: w, quote, by simp, Or.inr rfl⟩

theorem safeSegment_concat (s : Str) (x : Char) (h : NoKeyword (s ++ [x]))
    (hx : x ≠ 'A' ∧ x ≠ 'N' ∧ x ≠ 'O') : SafeSegment (s ++ [x]) := by
  refine ⟨h, ?_⟩
  intro y hy
  have hy1 : y = x := by simpa [Option.or] using hy.symm
  subst hy1
  exact hx

theorem not_keyword_char_of_digit_or_quote (x : Char) (h : isDigit x = true ∨ x = quote) :
    x ≠ 'A' ∧ x ≠ 'N' ∧ x ≠ 'O' := by
  rcases h with h | rfl
  · simp only [isDigit, Bool.and_eq_true, decide_eq_true_eq] at h
    refine ⟨?_, ?_, ?_⟩ <;> (intro e; subst e; revert h; decide)
  · decide

/-- The text of a good triple is a safe segment. -/
theorem goodTriple_safe (m : OperandMatch) (h : GoodTriple m) : SafeSegment m.text := by
  obtain ⟨ht, hno⟩ := h
  obtain ⟨body, x, e, hx⟩ := isLiteral_last m.value ht.2.2.2.2
  have e2 : m.text = (m.attr ++ (m.operator ++ body)) ++ [x] := by
    simp [OperandMatch.text, e]
  rw [e2] at hno ⊢
  exact safeSegment_concat _ x hno (not_keyword_char_of_digit_or_quote x hx)

theorem goodTriple_segmentNode (m : OperandMatch) (h : GoodTriple m) :
    segmentNode m.text = m.node := by
  have := segmentNode_triple [] m.attr m.operator m.value [] (by simp) h.1 (by simp)
  simpa [OperandMatch.text, OperandMatch.node] using this

/-- The text of one good triple parses to its operand node. -/
theorem parseRule_single (m : OperandMatch) (h : GoodTriple m) : parseRule m.text = m.node := by
  have hns : trimmed m.text = joinParts m.text [] :=
    trimmed_eq_self _ (isTriple_noSpace _ _ _ h.1)
  rw [parseRule_of_trimmed m.text m.text [] hns (goodTriple_safe m h) (by simp),
    goodTriple_segmentNode m h]
  rfl

/-! ## Left-associativity (C2) -/

theorem noSpace_joinParts (rest : List (Str × Str)) : ∀ (seg0 : Str),
    (∀ x ∈ seg0, isSpace x = false) →
    (∀ p ∈ rest, (p.1 = kwAND ∨ p.1 = kwOR) ∧ ∀ x ∈ p.2, isSpace x = false) →
    ∀ x ∈ joinParts seg0 rest, isSpace x = false := by
  induction rest with
  | nil => intro seg0 h0 _; simpa [joinParts] using h0
  | cons p rest ih =>
    intro seg0 h0 hrest x hx
    obtain ⟨kw, seg⟩ := p
    have hp := hrest (kw, seg) (List.mem_cons_self _ _)
    simp only [joinParts, List.mem_append] at hx
    rcases hx with hx | hx | hx
    · exact h0 x hx
    · rcases hp.1 with e | e <;> (simp only at e; subst e; revert x; decide)
    · exact ih seg hp.2 (fun q hq => hrest q (List.mem_cons_of_mem _ hq)) x hx

/-- C2.  For operand triples `t0..tn` of the grammar, none containing `AND` or
`OR`, and connectives `k1..kn`, `parseRule` of the text `t0 k1 t1 ... kn tn`
is the left-leaning tree `Op(kn, Op(..., Op(k1, t0, t1) ...), tn)`, whichever
connectives are used. -/
theorem parseRule_left_assoc (t0 : OperandMatch) (rest : List (Str × OperandMatch))
    (h0 : GoodTriple t0)
    (hrest : ∀ p ∈ rest, (p.1 = kwAND ∨ p.1 = kwOR) ∧ GoodTriple p.2) :
    parseRule (ruleText t0 rest) = chain t0.node rest := by
  have hns : trimmed (ruleText t0 rest) = ruleText t0 rest := by
    apply trimmed_eq_self
    apply noSpace_joinParts _ _ (isTriple_noSpace _ _ _ h0.1)
    intro p hp
    obtain ⟨q, hq, rfl⟩ := List.mem_map.mp hp
    exact ⟨(hrest q hq).1, isTriple_noSpace _ _ _ (hrest q hq).2.1⟩
  rw [parseRule_of_trimmed (ruleText t0 rest) t0.text
      (rest.map (fun p : Str × OperandMatch => (p.1, p.2.text))) hns
    (goodTriple_safe t0 h0)
    (by
      intro p hp
      obtain ⟨q, hq, rfl⟩ := List.mem_map.mp hp
      exact ⟨(hrest q hq).1, goodTriple_safe q.2 (hrest q hq).2⟩),
    goodTriple_segmentNode t0 h0]
  exact foldTail_listParts_chain OperandMatch.text rest
    (fun p hp => goodTriple_segmentNode p.2 (hrest p hp).2) _

theorem goodTriple_digit (a c v : Char) (ha : isLower a = true) (hc : isCmp c = true)
    (hv : isDigit v = true) : GoodTriple ⟨[a], [c], [v]⟩ := by
  refine ⟨⟨by simp, by simpa using ha, by simp, by simpa using hc,
    Or.inl ⟨by simp, by simpa using hv⟩⟩, ?_⟩
  rw [noKeyword_iff]
  intro t ht
  rw [keywordAt_eq_none_iff]
  have hA : a ≠ 'A' ∧ a ≠ 'O' := by
    constructor <;> (intro e; subst e; revert ha; decide)
  have hC : c ≠ 'A' ∧ c ≠ 'O' := by
    constructor <;> (intro e; subst e; revert hc; decide)
  have hV : v ≠ 'A' ∧ v ≠ 'O' := by
    constructor <;> (intro e; subst e; revert hv; decide)
  have hmem : ∀ x ∈ t, x ≠ 'A' ∧ x ≠ 'O' := by
    intro x hx
    have := ht.subset hx
    simp only [OperandMatch.text, List.cons_append, List.nil_append, List.mem_cons,
      List.mem_singleton, List.not_mem_nil, or_false] at this
    rcases this with rfl | rfl | rfl
    · exact hA
    · exact hC
    · exact hV
  constructor
  · rintro ⟨w, hw⟩
    exact (hmem 'A' (by rw [← hw]; simp [kwAND])).1 rfl
  · rintro ⟨w, hw⟩
    exact (hmem 'O' (by rw [← hw]; simp [kwOR])).2 rfl

/-- The rule `a>1ANDb>2ORc>3` parses to `((a>1 AND b>2) OR c>3)`, not to
`(a>1 AND (b>2 OR c>3))`. -/
theorem parseRule_left_assoc_witness :
    (GoodTriple ⟨['a'], ['>'], ['1']⟩ ∧
      ∀ p ∈ [(kwAND, (⟨['b'], ['>'], ['2']⟩ : OperandMatch)), (kwOR, ⟨['c'], ['>'], ['3']⟩)],
        (p.1 = kwAND ∨ p.1 = kwOR) ∧ GoodTriple p.2) ∧
    ruleText ⟨['a'], ['>'], ['1']⟩ [(kwAND, ⟨['b'], ['>'], ['2']⟩), (kwOR, ⟨['c'], ['>'], ['3']⟩)]
      = "a>1ANDb>2ORc>3".toList ∧
    parseRule (ruleText ⟨['a'], ['>'], ['1']⟩
        [(kwAND, ⟨['b'], ['>'], ['2']⟩), (kwOR, ⟨['c'], ['>'], ['3']⟩)])
      = chain (OperandMatch.node ⟨['a'], ['>'], ['1']⟩)
          [(kwAND, ⟨['b'], ['>'], ['2']⟩), (kwOR, ⟨['c'], ['>'], ['3']⟩)] ∧
    parseRule "a>1ANDb>2ORc>3".toList
      = Node.operator
          (Node.operator (Node.operand ['a'] ['>'] ['1']) (Node.operand ['b'] ['>'] ['2']) kwAND)
          (Node.operand ['c'] ['>'] ['3']) kwOR ∧
    parseRule "a>1ANDb>2ORc>3".toList
      ≠ Node.operator (Node.operand ['a'] ['>'] ['1'])
          (Node.operator (Node.operand ['b'] ['>'] ['2']) (Node.operand ['c'] ['>'] ['3']) kwOR)
          kwAND := by
  have hg : GoodTriple ⟨['a'], ['>'], ['1']⟩ ∧
      ∀ p ∈ [(kwAND, (⟨['b'], ['>'], ['2']⟩ : OperandMatch)), (kwOR, ⟨['c'], ['>'], ['3']⟩)],
        (p.1 = kwAND ∨ p.1 = kwOR) ∧ GoodTriple p.2 := by
    refine ⟨goodTriple_digit 'a' '>' '1' (by decide) (by decide) (by decide), ?_⟩
    intro p hp
    simp only [List.mem_cons, List.mem_singleton, List.not_mem_nil, or_false] at hp
    rcases hp with rfl | rfl
    · exact ⟨Or.inl rfl, goodTriple_digit 'b' '>' '2' (by decide) (by decide) (by decide)⟩
    · exact ⟨Or.inr rfl, goodTriple_digit 'c' '>' '3' (by decide) (by decide) (by decide)⟩
  exact ⟨hg, by decide, parseRule_left_assoc _ _ hg.1 hg.2, by decide, by decide⟩

/-! ## Round trip through the renderer (C3) -/

theorem noKeyword_cons (x : Char) (s : Str) (hx : x ≠ 'A' ∧ x ≠ 'O') (h : NoKeyword s) :
    NoKeyword (x :: s) := by
  rw [noKeyword_iff] at h ⊢
  intro t ht
  rcases List.suffix_cons_iff.mp ht with rfl | ht
  · rw [keywordAt_eq_none_iff]
    constructor
    · rintro ⟨w, hw⟩
      simp only [kwAND, List.cons_append, List.cons.injEq] at hw
      exact hx.1 hw.1.symm
    · rintro ⟨w, hw⟩
      simp only [kwOR, List.cons_append, List.cons.injEq] at hw
      exact hx.2 hw.1.symm
  · exact h t ht

theorem noKeyword_concat (x : Char) (s : Str) (hx : x ≠ 'D' ∧ x ≠ 'R') (h : NoKeyword s) :
    NoKeyword (s ++ [x]) := by
  constructor
  · rintro ⟨u, w, hw⟩
    rcases List.eq_nil_or_concat w with rfl | ⟨w1, y, rfl⟩
    · have e : (u ++ ['A', 'N']) ++ ['D'] = s ++ [x] := by simpa [kwAND] using hw
      have := List.append_inj' e rfl
      simp only [List.cons.injEq, and_true] at this
      exact hx.1 this.2.symm
    · have e : (u ++ kwAND ++ w1) ++ [y] = s ++ [x] := by simpa using hw
      have := List.append_inj' e rfl
      exact h.1 ⟨u, w1, this.1⟩
  · rintro ⟨u, w, hw⟩
    rcases List.eq_nil_or_concat w with rfl | ⟨w1, y, rfl⟩
    · have e : (u ++ ['O']) ++ ['R'] = s ++ [x] := by simpa [kwOR] using hw
      have := List.append_inj' e rfl
      simp only [List.cons.injEq, and_true] at this
      exact hx.2 this.2.symm
    · have e : (u ++ kwOR ++ w1) ++ [y] = s ++ [x] := by simpa using hw
      have := List.append_inj' e rfl
      exact h.2 ⟨u, w1, this.1⟩

theorem noKeyword_replicate_append (n : Nat) (s : Str) (h : NoKeyword s) :
    NoKeyword (List.replicate n '(' ++ s) := by
  induction n with
  | zero => simpa using h
  | succ n ih =>
    rw [List.replicate_succ, List.cons_append]
    exact noKeyword_cons '(' _ (by decide) ih

theorem goodTriple_noKeyword_wrapped (m : OperandMatch) (h : GoodTriple m) :
    NoKeyword m.wrapped :=
  noKeyword_cons '(' _ (by decide) (noKeyword_concat ')' _ (by decide) h.2)

/-- The first segment of a rendering, with its opening parentheses, is safe. -/
theorem goodTriple_safe_first (m : OperandMatch) (h : GoodTriple m) (n : Nat) :
    SafeSegment (List.replicate n '(' ++ m.wrapped) := by
  have e : List.replicate n '(' ++ m.wrapped
      = (List.replicate n '(' ++ '(' :: m.text) ++ [')'] := by
    simp [OperandMatch.wrapped]
  have hno := noKeyword_replicate_append n m.wrapped (goodTriple_noKeyword_wrapped m h)
  rw [e] at hno ⊢
  exact safeSegment_concat _ ')' hno (by decide)

/-- The segment of a right child of a rendering is safe. -/
theorem goodTriple_safe_closed (m : OperandMatch) (h : GoodTriple m) :
    SafeSegment m.closed :=
  safeSegment_concat _ ')'
    (noKeyword_concat ')' _ (by decide) (goodTriple_noKeyword_wrapped m h)) (by decide)

theorem goodTriple_segmentNode_first (m : OperandMatch) (h : GoodTriple m) (n : Nat) :
    segmentNode (List.replicate n '(' ++ m.wrapped) = m.node := by
  have := segmentNode_triple (List.replicate n '(' ++ ['(']) m.attr m.operator m.value [')']
    (by
      intro x hx
      simp only [List.mem_append, List.mem_replicate, List.mem_singleton] at hx
      rcases hx with ⟨_, rfl⟩ | rfl <;> decide)
    h.1 (by intro x r e; simp only [List.cons.injEq] at e; rw [← e.1]; decide)
  simpa [OperandMatch.wrapped, OperandMatch.text, OperandMatch.node] using this

theorem goodTriple_segmentNode_closed (m : OperandMatch) (h : GoodTriple m) :
    segmentNode m.closed = m.node := by
  have := segmentNode_triple ['('] m.attr m.operator m.value [')', ')']
    (by intro x hx; simp only [List.mem_singleton] at hx; subst hx; decide)
    h.1 (by intro x r e; simp only [List.cons.injEq] at e; rw [← e.1]; decide)
  simpa [OperandMatch.closed, OperandMatch.wrapped, OperandMatch.text, OperandMatch.node]
    using this

theorem joinParts_append (p : Str) (rest : List (Str × Str)) (s : Str) :
    joinParts (p ++ s) rest = p ++ joinParts s rest := by
  cases rest with
  | nil => rfl
  | cons q rest => obtain ⟨kw, seg⟩ := q; simp [joinParts]

theorem trimmed_keyword (kw : Str) (h : kw = kwAND ∨ kw = kwOR) : trimmed kw = kw := by
  rcases h with rfl | rfl <;> decide

/-- The rendering of an operand node, without its spaces. -/
theorem trimmed_ruleToString_node (m : OperandMatch) (h : GoodTriple m) :
    trimmed (ruleToString m.node) = m.wrapped := by
  have h1 := isTriple_noSpace _ _ _ h.1
  have ha : trimmed m.attr = m.attr :=
    trimmed_eq_self _ (fun x hx => h1 x (by simp [hx]))
  have hc : trimmed m.operator = m.operator :=
    trimmed_eq_self _ (fun x hx => h1 x (by simp [hx]))
  have hv : trimmed m.value = m.value :=
    trimmed_eq_self _ (fun x hx => h1 x (by simp [hx]))
  have hs : trimmed [' '] = [] := by decide
  have hl : trimmed ['('] = ['('] := by decide
  have hr : trimmed [')'] = [')'] := by decide
  simp only [OperandMatch.node, ruleToString, trimmed_append, ha, hc, hv, hs, hl, hr,
    OperandMatch.wrapped, OperandMatch.text]
  simp

theorem trimmed_ruleToString_operator (t r : Node) (kw : Str) (hk : kw = kwAND ∨ kw = kwOR) :
    trimmed (ruleToString (Node.operator t r kw))
      = ['('] ++ (trimmed (ruleToString t) ++ (kw ++ (trimmed (ruleToString r) ++ [')']))) := by
  have hs : trimmed [' '] = [] := by decide
  have hl : trimmed ['('] = ['('] := by decide
  have hr : trimmed [')'] = [')'] := by decide
  simp only [ruleToString, trimmed_append, hs, hl, hr, trimmed_keyword kw hk]
  simp

/-- The rendering of a left-leaning tree, without its spaces: the opening
parentheses, the rendering of the innermost node, and for every further
operand its connective and its closed segment. -/
theorem trimmed_ruleToString_chain (rest : List (Str × OperandMatch))
    (hrest : ∀ p ∈ rest, (p.1 = kwAND ∨ p.1 = kwOR) ∧ GoodTriple p.2) : ∀ (t : Node),
    trimmed (ruleToString (chain t rest))
      = List.replicate rest.length '(' ++
          joinParts (trimmed (ruleToString t))
            (rest.map (fun p : Str × OperandMatch => (p.1, p.2.closed))) := by
  induction rest with
  | nil => intro t; simp [chain, joinParts]
  | cons p rest ih =>
    intro t
    obtain ⟨kw, m⟩ := p
    have hp := hrest (kw, m) (List.mem_cons_self _ _)
    have e1 : trimmed (ruleToString (Node.operator t m.node kw))
        = ['('] ++ (trimmed (ruleToString t) ++ (kw ++ m.closed)) := by
      rw [trimmed_ruleToString_operator t m.node kw hp.1, trimmed_ruleToString_node m hp.2]
      rfl
    rw [chain, ih (fun q hq => hrest q (List.mem_cons_of_mem _ hq)), e1]
    simp only [List.map_cons, joinParts, List.length_cons, List.replicate_succ']
    rw [joinParts_append, joinParts_append, joinParts_append]
    simp

/-- Parsing the rendering of a left-leaning tree of good triples gives the
tree back. -/
theorem parseRule_ruleToString_chain (m0 : OperandMatch) (rest : List (Str × OperandMatch))
    (h0 : GoodTriple m0)
    (hrest : ∀ p ∈ rest, (p.1 = kwAND ∨ p.1 = kwOR) ∧ GoodTriple p.2) :
    parseRule (ruleToString (chain m0.node rest)) = chain m0.node rest := by
  have he : trimmed (ruleToString (chain m0.node rest))
      = joinParts (List.replicate rest.length '(' ++ m0.wrapped)
          (rest.map (fun p : Str × OperandMatch => (p.1, p.2.closed))) := by
    rw [trimmed_ruleToString_chain rest hrest, trimmed_ruleToString_node m0 h0, joinParts_append]
  rw [parseRule_of_trimmed _ _ _ he (goodTriple_safe_first m0 h0 rest.length)
    (by
      intro p hp
      obtain ⟨q, hq, rfl⟩ := List.mem_map.mp hp
      exact ⟨(hrest q hq).1, goodTriple_safe_closed q.2 (hrest q hq).2⟩),
    goodTriple_segmentNode_first m0 h0]
  exact foldTail_listParts_chain OperandMatch.closed rest
    (fun p hp => goodTriple_segmentNode_closed p.2 (hrest p hp).2) _

/-- The operand found in a segment free of connectives is a good triple. -/
theorem segmentNode_good (seg : Str) (hseg : NoKeyword seg) (h : matchAll seg ≠ []) :
    ∃ m : OperandMatch, GoodTriple m ∧ segmentNode seg = m.node := by
  rcases segmentNode_cases seg with ⟨h0, _⟩ | ⟨m, _, e, ht, pre, post, es⟩
  · exact absurd h0 h
  · refine ⟨m, ⟨ht, noKeyword_of_infix _ seg hseg ?_⟩, e⟩
    exact ⟨pre, post, by rw [es]; simp [OperandMatch.text]⟩

theorem foldTail_wellFormed (tail : List Str) (hp : PartsTail tail)
    (h : ∀ part ∈ tail, part ≠ kwAND → part ≠ kwOR → matchAll part ≠ []) :
    ∃ rest : List (Str × OperandMatch),
      (∀ p ∈ rest, (p.1 = kwAND ∨ p.1 = kwOR) ∧ GoodTriple p.2) ∧
      ∀ t : Node, foldTail t tail = chain t rest := by
  induction hp with
  | nil => exact ⟨[], by simp, fun t => rfl⟩
  | cons kw seg tail1 hk hseg _ ih =>
    have hs : matchAll seg ≠ [] := h seg (by simp)
      (fun e => not_noKeyword_kwAND (e ▸ hseg)) (fun e => not_noKeyword_kwOR (e ▸ hseg))
    obtain ⟨m, hm, em⟩ := segmentNode_good seg hseg hs
    obtain ⟨rest, hrest, hfold⟩ := ih (fun part hp => h part (by simp [hp]))
    refine ⟨(kw, m) :: rest, ?_, ?_⟩
    · intro p hp
      rcases List.mem_cons.mp hp with rfl | hp
      · exact ⟨hk, hm⟩
      · exact hrest p hp
    · intro t
      simp only [foldTail, chain, em, hfold]

/-- The tree of a well-formed rule is a left-leaning tree of good triples. -/
theorem parseRule_wellFormed (ruleString : Str) (h : WellFormed ruleString) :
    ∃ (m0 : OperandMatch) (rest : List (Str × OperandMatch)),
      GoodTriple m0 ∧ (∀ p ∈ rest, (p.1 = kwAND ∨ p.1 = kwOR) ∧ GoodTriple p.2) ∧
      parseRule ruleString = chain m0.node rest := by
  obtain ⟨seg, tail, e, hseg, htail⟩ := split_parts (trimmed ruleString)
  have hs : matchAll seg ≠ [] := h seg (by simp [e])
    (fun e1 => not_noKeyword_kwAND (e1 ▸ hseg)) (fun e1 => not_noKeyword_kwOR (e1 ▸ hseg))
  obtain ⟨m0, hm0, em0⟩ := segmentNode_good seg hseg hs
  obtain ⟨rest, hrest, hfold⟩ := foldTail_wellFormed tail htail
    (fun part hp => h part (by simp [e, hp]))
  refine ⟨m0, rest, hm0, hrest, ?_⟩
  rw [parseRule_eq_foldParts]
  change foldParts (split (trimmed ruleString)) = _
  rw [e]
  simp only [foldParts, em0, hfold]

/-- C3.  For every well-formed rule, parsing the rendering of the AST that
`parseRule` returns gives that AST back. -/
theorem parseRule_ruleToString_roundtrip (ruleString : Str) (h : WellFormed ruleString) :
    parseRule (ruleToString (parseRule ruleString)) = parseRule ruleString := by
  obtain ⟨m0, rest, hm0, hrest, e⟩ := parseRule_wellFormed ruleString h
  rw [e]
  exact parseRule_ruleToString_chain m0 rest hm0 hrest

/-- The rule `age > 30 AND status = 'active' OR b>=2` is well formed, its AST
renders as `(((age > 30) AND (status = 'active')) OR (b >= 2))`, and that text
parses to the same AST. -/
theorem parseRule_ruleToString_roundtrip_witness :
    WellFormed "age > 30 AND status = 'active' OR b>=2".toList ∧
    parseRule (ruleToString (parseRule "age > 30 AND status = 'active' OR b>=2".toList))
      = parseRule "age > 30 AND status = 'active' OR b>=2".toList ∧
    ruleToString (parseRule "age > 30 AND status = 'active' OR b>=2".toList)
      = "(((age > 30) AND (status = 'active')) OR (b >= 2))".toList :=
  ⟨by unfold WellFormed; decide,
    parseRule_ruleToString_roundtrip _ (by unfold WellFormed; decide), by decide⟩

/-! ## The combiner on two rules (C5) -/

/-- C5, the code at the input `["age>30", "status='active'"]`: `combine_rules`
does not return the node `Op(OR, age>30, status='active')`; the assignment to
the constant `combinedNode` raises a `TypeError`. -/
theorem combine_rules_two_raises :
    combine_rules ["age>30".toList, "status='active'".toList]
      = Except.error (JSError.typeError "Assignment to constant variable.".toList) := by
  rfl

/-! ## Numeric literals (C6, C7) -/

/-- C6, the code at the rule `age=30` and the record `{age: 30}`: the
comparison value is the string `30`, not the number 30, and the strict
equality of the number 30 with it is false. -/
theorem numeric_equality_is_false :
    parseRule "age=30".toList = Node.operand "age".toList ['='] "30".toList ∧
    evaluate_rule (parseRule "age=30".toList) (numberRecord "age".toList 30) = false := by
  decide

theorem noKeyword_of_chars (s : Str) (h : ∀ x ∈ s, x ≠ 'A' ∧ x ≠ 'O') : NoKeyword s := by
  constructor
  · rintro ⟨u, w, hw⟩
    exact (h 'A' (by rw [← hw]; simp [kwAND])).1 rfl
  · rintro ⟨u, w, hw⟩
    exact (h 'O' (by rw [← hw]; simp [kwOR])).2 rfl

theorem not_AO_of_isLower (x : Char) (h : isLower x = true) : x ≠ 'A' ∧ x ≠ 'O' := by
  constructor <;> (intro e; subst e; revert h; decide)

theorem not_AO_of_isCmp (x : Char) (h : isCmp x = true) : x ≠ 'A' ∧ x ≠ 'O' := by
  constructor <;> (intro e; subst e; revert h; decide)

theorem not_AO_of_isDigit (x : Char) (h : isDigit x = true) : x ≠ 'A' ∧ x ≠ 'O' := by
  constructor <;> (intro e; subst e; revert h; decide)

/-- A single operand with a digit literal parses to its operand node. -/
theorem parseRule_digit_operand (a c lit : Str)
    (ha : a ≠ [] ∧ ∀ x ∈ a, isLower x = true) (hc : c ≠ [] ∧ ∀ x ∈ c, isCmp x = true)
    (hlit : lit ≠ [] ∧ ∀ x ∈ lit, isDigit x = true) :
    parseRule (a ++ (c ++ lit)) = Node.operand a c lit := by
  have hg : GoodTriple ⟨a, c, lit⟩ := by
    refine ⟨⟨ha.1, ha.2, hc.1, hc.2, Or.inl hlit⟩, noKeyword_of_chars _ ?_⟩
    intro x hx
    simp only [OperandMatch.text, List.mem_append] at hx
    rcases hx with hx | hx | hx
    · exact not_AO_of_isLower x (ha.2 x hx)
    · exact not_AO_of_isCmp x (hc.2 x hx)
    · exact not_AO_of_isDigit x (hlit.2 x hx)
  simpa [OperandMatch.text, OperandMatch.node] using parseRule_single ⟨a, c, lit⟩ hg

theorem roundToDouble_exact (n : Nat) (h : n ≤ 2 ^ 53) : roundToDouble n = JSNumber.fin n := by
  rcases Nat.lt_or_ge n (2 ^ 53) with h1 | h1
  · unfold roundToDouble
    rw [if_pos h1]
  · have e : n = 2 ^ 53 := Nat.le_antisymm h h1
    subst e
    decide

theorem stringToNumber_digits (lit : Str) (hlit : lit ≠ [] ∧ ∀ x ∈ lit, isDigit x = true)
    (hn : decimalValue lit ≤ 2 ^ 53) :
    stringToNumber lit = JSNumber.fin (decimalValue lit) := by
  have hall : lit.all isDigit = true := by simpa using hlit.2
  simp [stringToNumber, hlit.1, hall, roundToDouble_exact _ hn]

/-- C7, as the code behaves.  For an attribute `[a-z]+`, an ordering
comparator `c`, a digit literal whose value `n` is at most `2^53` and a record
that maps the attribute to the integer `v`, the rule `a c n` evaluates to the
arithmetic truth value of `v c n`. -/
theorem ordering_comparators (a c lit : Str) (v : Int) (data : Record)
    (ha : a ≠ [] ∧ ∀ x ∈ a, isLower x = true)
    (hc : c = ['>'] ∨ c = ['<'] ∨ c = ['>', '='] ∨ c = ['<', '='])
    (hlit : lit ≠ [] ∧ ∀ x ∈ lit, isDigit x = true)
    (hn : decimalValue lit ≤ 2 ^ 53)
    (hdata : data a = JSValue.number (JSNumber.fin v)) :
    evaluate_rule (parseRule (a ++ (c ++ lit))) data = compareInt c v (decimalValue lit) := by
  have hcmp : c ≠ [] ∧ ∀ x ∈ c, isCmp x = true := by
    rcases hc with rfl | rfl | rfl | rfl <;> exact ⟨by simp, by decide⟩
  have hs : stripQuotes lit = lit :=
    stripQuotes_eq_self lit (fun x hx => ne_quote_of_isDigit x (hlit.2 x hx))
  have hnum := stringToNumber_digits lit hlit hn
  rw [parseRule_digit_operand a c lit ha hcmp hlit]
  rcases hc with rfl | rfl | rfl | rfl
  · simp [evaluate_rule, evaluateOperand, hdata, hs, lessThan_string_number, lessThan_number_string, hnum, numberLt,
      compareInt]
  · simp [evaluate_rule, evaluateOperand, hdata, hs, lessThan_string_number, lessThan_number_string, hnum, numberLt,
      compareInt]
  · simp only [evaluate_rule, evaluateOperand, hdata, hs, lessThan_string_number, lessThan_number_string, hnum, numberLt,
      compareInt]
    simp only [List.cons.injEq, reduceCtorEq, and_false, and_true, if_false, if_true]
    by_cases h1 : (decimalValue lit : Int) ≤ v
    · simp [h1, not_lt.mpr h1]
    · simp [h1, not_le.mp h1]
  · simp only [evaluate_rule, evaluateOperand, hdata, hs, lessThan_string_number, lessThan_number_string, hnum, numberLt,
      compareInt]
    simp only [List.cons.injEq, reduceCtorEq, and_false, and_true, if_false, if_true]
    by_cases h1 : v ≤ (decimalValue lit : Int)
    · simp [h1, not_lt.mpr h1]
    · simp [h1, not_le.mp h1]

/-- The rule `age>=30` on the records `{age: 30}` (true) and `{age: 29}`
(false). -/
theorem ordering_comparators_witness :
    (("age".toList ≠ [] ∧ ∀ x ∈ "age".toList, isLower x = true) ∧
      ("30".toList ≠ [] ∧ ∀ x ∈ "30".toList, isDigit x = true) ∧
      decimalValue "30".toList ≤ 2 ^ 53 ∧
      numberRecord "age".toList 30 "age".toList = JSValue.number (JSNumber.fin 30)) ∧
    evaluate_rule (parseRule ("age".toList ++ (['>', '='] ++ "30".toList)))
        (numberRecord "age".toList 30)
      = compareInt ['>', '='] 30 (decimalValue "30".toList) ∧
    evaluate_rule (parseRule "age>=30".toList) (numberRecord "age".toList 30) = true ∧
    evaluate_rule (parseRule "age>=30".toList) (numberRecord "age".toList 29) = false :=
  ⟨⟨by decide, by decide, by decide, by decide⟩,
    ordering_comparators "age".toList ['>', '='] "30".toList 30 (numberRecord "age".toList 30)
      (by decide) (Or.inr (Or.inr (Or.inl rfl))) (by decide) (by decide) (by decide),
    by decide, by decide⟩

/-- C7, counterexample.  The literal `9007199254740993` (`2^53 + 1`) is not a
double: it is read as `2^53`, so the rule `a<9007199254740993` is false on the
record `{a: 9007199254740992}` although `2^53 < 2^53 + 1`. -/
theorem ordering_comparators_large_literal :
    evaluate_rule (parseRule "a<9007199254740993".toList)
        (numberRecord ['a'] 9007199254740992) = false ∧
    compareInt ['<'] 9007199254740992 (decimalValue "9007199254740993".toList) = true := by
  decide

/-! ## Text equality (C8) -/

/-- C8.  For an operand node with comparator `=` and the quoted literal `'w'`,
and a record that maps the attribute to the string `s`, the node evaluates to
true exactly when `s` without its quote characters equals `w`. -/
theorem text_equality (attr w s : Str) (data : Record) (hw : ∀ c ∈ w, c ≠ quote)
    (hdata : data attr = JSValue.string s) :
    evaluate_rule (Node.operand attr ['='] (quote :: (w ++ [quote]))) data
      = decide (stripQuotes s = w) := by
  simp [evaluate_rule, evaluateOperand, hdata, stripQuotes_quoted w hw, strictEquals]

/-- The rule `status='active'` on the records `{status: "active"}`,
`{status: "'active'"}` (both true) and `{status: "inactive"}` (false). -/
theorem text_equality_witness :
    ((∀ c ∈ "active".toList, c ≠ quote) ∧
      stringRecord "status".toList "'active'".toList "status".toList
        = JSValue.string "'active'".toList) ∧
    evaluate_rule (Node.operand "status".toList ['='] (quote :: ("active".toList ++ [quote])))
        (stringRecord "status".toList "'active'".toList)
      = decide (stripQuotes "'active'".toList = "active".toList) ∧
    parseRule "status='active'".toList
      = Node.operand "status".toList ['='] (quote :: ("active".toList ++ [quote])) ∧
    evaluate_rule (parseRule "status='active'".toList)
        (stringRecord "status".toList "active".toList) = true ∧
    evaluate_rule (parseRule "status='active'".toList)
        (stringRecord "status".toList "'active'".toList) = true ∧
    evaluate_rule (parseRule "status='active'".toList)
        (stringRecord "status".toList "inactive".toList) = false :=
  ⟨⟨by decide, by decide⟩,
    text_equality "status".toList "active".toList "'active'".toList
      (stringRecord "status".toList "'active'".toList) (by decide) (by decide),
    by decide, by decide, by decide, by decide⟩

/-! ## Unrecognized comparators (C9) -/

/-- C9.  An operand node whose comparator is none of `>`, `<`, `=`, `>=`, `<=`
evaluates to false on every record. -/
theorem unrecognized_comparator (attr op value : Str) (data : Record)
    (h : op ≠ ['>'] ∧ op ≠ ['<'] ∧ op ≠ ['='] ∧ op ≠ ['>', '='] ∧ op ≠ ['<', '=']) :
    evaluate_rule (Node.operand attr op value) data = false := by
  obtain ⟨h1, h2, h3, h4, h5⟩ := h
  simp [evaluate_rule, evaluateOperand, h1, h2, h3, h4, h5]

/-- The comparators `==`, `=>`, `>>` and `<>` are accepted by the parser and
evaluate to false, also on a record where `a` is 1. -/
theorem unrecognized_comparator_witness :
    (['=', '='] ≠ ['>'] ∧ ['=', '='] ≠ ['<'] ∧ ['=', '='] ≠ ['='] ∧
      ['=', '='] ≠ ['>', '='] ∧ ['=', '='] ≠ ['<', '=']) ∧
    evaluate_rule (Node.operand ['a'] ['=', '='] ['1']) (numberRecord ['a'] 1) = false ∧
    parseRule "a==1".toList = Node.operand ['a'] ['=', '='] ['1'] ∧
    parseRule "a=>1".toList = Node.operand ['a'] ['=', '>'] ['1'] ∧
    parseRule "a>>1".toList = Node.operand ['a'] ['>', '>'] ['1'] ∧
    parseRule "a<>1".toList = Node.operand ['a'] ['<', '>'] ['1'] ∧
    evaluate_rule (parseRule "a==1".toList) (numberRecord ['a'] 1) = false ∧
    evaluate_rule (parseRule "a=>1".toList) (numberRecord ['a'] 1) = false ∧
    evaluate_rule (parseRule "a>>1".toList) (numberRecord ['a'] 2) = false ∧
    evaluate_rule (parseRule "a<>1".toList) (numberRecord ['a'] 2) = false :=
  ⟨by decide,
    unrecognized_comparator ['a'] ['=', '='] ['1'] (numberRecord ['a'] 1) (by decide),
    by decide, by decide, by decide, by decide, by decide, by decide, by decide, by decide⟩

/-! ## The combiner (C11, C12, C18) -/

theorem chain_isNull (rest : List (Str × OperandMatch)) : ∀ (t : Node),
    t.isNull = false → (chain t rest).isNull = false := by
  induction rest with
  | nil => intro t h; exact h
  | cons p rest ih => intro t _; obtain ⟨kw, m⟩ := p; exact ih _ rfl

theorem combineStep_null (c : Node) (rule : Str) :
    combineStep { combinedNode := c, left := Node.null } rule
      = Except.ok { combinedNode := c, left := parseRule rule } := rfl

theorem combineStep_present (t : Node) (ht : t.isNull = false) (rule : Str) :
    combineStep { combinedNode := emptyCombined, left := t } rule = Except.error constAssignment := by
  cases t with
  | null => simp [Node.isNull] at ht
  | operand a o v => rfl
  | operator l r v => rfl

theorem combine_rules_single (rule : Str) (h : (parseRule rule).isNull = false) :
    combine_rules [rule] = Except.ok (parseRule rule) := by
  unfold combine_rules
  simp only [combineLoop, combineStep_null]
  cases hp : parseRule rule with
  | null => rw [hp] at h; simp [Node.isNull] at h
  | operand a o v => rfl
  | operator l r v => rfl

/-- C11.  For every well-formed rule, `combine_rules` applied to the single
rendering of its AST returns that AST, with no wrapping `OR` node. -/
theorem combine_rules_identity (ruleString : Str) (h : WellFormed ruleString) :
    combine_rules [ruleToString (parseRule ruleString)] = Except.ok (parseRule ruleString) := by
  obtain ⟨m0, rest, hm0, hrest, e⟩ := parseRule_wellFormed ruleString h
  have hrt := parseRule_ruleToString_chain m0 rest hm0 hrest
  have hnn : (chain m0.node rest).isNull = false := chain_isNull rest m0.node rfl
  rw [e]
  have := combine_rules_single (ruleToString (chain m0.node rest)) (by rw [hrt]; exact hnn)
  rw [this, hrt]

/-- The rule `age>30ANDstatus='active'`: combining the rendering of its AST
alone gives the AST back. -/
theorem combine_rules_identity_witness :
    WellFormed "age>30ANDstatus='active'".toList ∧
    combine_rules [ruleToString (parseRule "age>30ANDstatus='active'".toList)]
      = Except.ok (parseRule "age>30ANDstatus='active'".toList) ∧
    combine_rules ["((age > 30) AND (status = 'active'))".toList]
      = Except.ok (Node.operator (Node.operand "age".toList ['>'] "30".toList)
          (Node.operand "status".toList ['='] "'active'".toList) kwAND) :=
  ⟨by unfold WellFormed; decide,
    combine_rules_identity _ (by unfold WellFormed; decide), by rfl⟩

/-- C12.  On the empty list `combine_rules` returns the `OR` operator node with
both children absent, and `evaluate_rule` is false on that node for every
record. -/
theorem combine_rules_empty :
    combine_rules [] = Except.ok (Node.operator Node.null Node.null kwOR) ∧
    childrenPresent (Node.operator Node.null Node.null kwOR) = false ∧
    ∀ data : Record, evaluate_rule (Node.operator Node.null Node.null kwOR) data = false := by
  refine ⟨rfl, rfl, ?_⟩
  intro data
  simp [evaluate_rule]

theorem combineLoop_present (rules : List Str) (t : Node) (ht : t.isNull = false) :
    combineLoop rules { combinedNode := emptyCombined, left := t }
      = if rules = [] then Except.ok { combinedNode := emptyCombined, left := t }
        else Except.error constAssignment := by
  cases rules with
  | nil => rfl
  | cons r rest => simp [combineLoop, combineStep_present t ht r]

theorem combineLoop_result (rules : List Str) :
    combineLoop rules { combinedNode := emptyCombined, left := Node.null }
      = if rules.dropLast.all (fun r => (parseRule r).isNull) then
          Except.ok { combinedNode := emptyCombined,
                      left := match rules.getLast? with
                        | none => Node.null
                        | some r => parseRule r }
        else Except.error constAssignment := by
  induction rules with
  | nil => rfl
  | cons r rest ih =>
    rw [combineLoop, combineStep_null]
    simp only []
    cases hrest : rest with
    | nil => simp [combineLoop]
    | cons r2 rest2 =>
      rw [← hrest]
      have hne : rest ≠ [] := by rw [hrest]; simp
      have hd : (r :: rest).dropLast = r :: rest.dropLast := by
        rw [hrest]; rfl
      have hl : (r :: rest).getLast? = rest.getLast? := by
        rw [hrest]; simp [List.getLast?_cons_cons]
      rw [hd, hl]
      cases hp : (parseRule r).isNull with
      | true =>
        have hnull : parseRule r = Node.null := by
          cases hq : parseRule r with
          | null => rfl
          | operand a o v => rw [hq] at hp; simp [Node.isNull] at hp
          | operator l r1 v => rw [hq] at hp; simp [Node.isNull] at hp
        rw [hnull, ih]
        simp [hp]
      | false =>
        rw [combineLoop_present rest (parseRule r) hp]
        simp [hne, hp]

/-- C18.  `combine_rules` completes exactly when every rule except the last
parses to `null`; it then returns the parse of the last rule when that is
present and otherwise (also for the empty list) the `OR` node with both
children absent.  In every other case the assignment to the constant
`combinedNode` raises. -/
theorem combine_rules_completes (rules : List Str) :
    combine_rules rules
      = if rules.dropLast.all (fun r => (parseRule r).isNull) then
          Except.ok (combineResult rules)
        else Except.error constAssignment := by
  unfold combine_rules
  have h := combineLoop_result rules
  simp only [emptyCombined] at h
  rw [h]
  by_cases hall : rules.dropLast.all (fun r => (parseRule r).isNull) = true
  · simp only [hall, if_true, combineResult, emptyCombined]
    cases hl : rules.getLast? with
    | none => rfl
    | some r =>
      simp only []
      cases hq : parseRule r with
      | null => rfl
      | operand a o v => rfl
      | operator l r1 v => rfl
  · simp [hall]

/-! ## White space (C16) -/

/-- C16.  Two rule strings with the same sequence of characters other than
white space parse to the same AST; in particular a rule parses as the rule
without its white space. -/
theorem parseRule_whitespace (s1 s2 : Str) (h : trimmed s1 = trimmed s2) :
    parseRule s1 = parseRule s2 ∧ parseRule s1 = parseRule (trimmed s1) := by
  have h1 : ∀ s : Str, parseRule s = foldParts (split (trimmed s)) := parseRule_eq_foldParts
  have h2 : trimmed (trimmed s1) = trimmed s1 := by simp [trimmed]
  exact ⟨by rw [h1 s1, h1 s2, h], by rw [h1 s1, h1 (trimmed s1), h2]⟩

/-- The rules `age > 30 AND status = 'active'` and `age>30ANDstatus='active'`
parse to the same AST. -/
theorem parseRule_whitespace_witness :
    trimmed "age > 30 AND status = 'active'".toList = trimmed "age>30ANDstatus='active'".toList ∧
    (parseRule "age > 30 AND status = 'active'".toList
        = parseRule "age>30ANDstatus='active'".toList ∧
      parseRule "age > 30 AND status = 'active'".toList
        = parseRule (trimmed "age > 30 AND status = 'active'".toList)) ∧
    parseRule "age > 30 AND status = 'active'".toList
      = Node.operator (Node.operand "age".toList ['>'] "30".toList)
          (Node.operand "status".toList ['='] "'active'".toList) kwAND :=
  ⟨by decide, parseRule_whitespace _ _ (by decide), by decide⟩

/-! ## A single operand (C17) -/

theorem noKeyword_append_chars (p s : Str) (hp : ∀ x ∈ p, x ≠ 'A' ∧ x ≠ 'O')
    (h : NoKeyword s) : NoKeyword (p ++ s) := by
  induction p with
  | nil => simpa using h
  | cons x p ih =>
    rw [List.cons_append]
    exact noKeyword_cons x _ (hp x (List.mem_cons_self x p))
      (ih (fun y hy => hp y (List.mem_cons_of_mem x hy)))

/-- C17, as the code behaves.  For an attribute `[a-z]+`, one of the five
comparators and a literal of the grammar that contains neither `AND` nor `OR`,
the rule `a c v` parses to the operand node with these three components. -/
theorem parseRule_single_operand (a c v : Str)
    (ha : a ≠ [] ∧ ∀ x ∈ a, isLower x = true)
    (hc : c = ['>'] ∨ c = ['<'] ∨ c = ['='] ∨ c = ['>', '='] ∨ c = ['<', '='])
    (hv : IsLiteral v) (hno : NoKeyword v) :
    parseRule (a ++ (c ++ v)) = Node.operand a c v := by
  have hcmp : c ≠ [] ∧ ∀ x ∈ c, isCmp x = true := by
    rcases hc with rfl | rfl | rfl | rfl | rfl <;> exact ⟨by simp, by decide⟩
  have hg : GoodTriple ⟨a, c, v⟩ := by
    refine ⟨⟨ha.1, ha.2, hcmp.1, hcmp.2, hv⟩, ?_⟩
    have e : (⟨a, c, v⟩ : OperandMatch).text = (a ++ c) ++ v := by simp [OperandMatch.text]
    rw [e]
    apply noKeyword_append_chars _ _ _ hno
    intro x hx
    rcases List.mem_append.mp hx with hx | hx
    · exact not_AO_of_isLower x (ha.2 x hx)
    · exact not_AO_of_isCmp x (hcmp.2 x hx)
  simpa [OperandMatch.text, OperandMatch.node] using parseRule_single ⟨a, c, v⟩ hg

theorem noKeyword_active : NoKeyword "'active'".toList := by
  rw [noKeyword_iff]
  intro t ht
  have hall : ∀ u ∈ "'active'".toList.tails, keywordAt u = none := by decide
  exact hall t ((List.mem_tails _ _).mpr ht)

/-- The rule `status='active'` parses to its operand node. -/
theorem parseRule_single_operand_witness :
    (("status".toList ≠ [] ∧ ∀ x ∈ "status".toList, isLower x = true) ∧
      IsLiteral "'active'".toList ∧ NoKeyword "'active'".toList) ∧
    parseRule ("status".toList ++ (['='] ++ "'active'".toList))
      = Node.operand "status".toList ['='] "'active'".toList :=
  ⟨⟨by decide, Or.inr ⟨"active".toList, by decide, by decide, by decide⟩, noKeyword_active⟩,
    parseRule_single_operand "status".toList ['='] "'active'".toList (by decide)
      (Or.inr (Or.inr (Or.inl rfl)))
      (Or.inr ⟨"active".toList, by decide, by decide, by decide⟩) noKeyword_active⟩

/-- C17, counterexample.  The literals `'ORLANDO'` and `'ANDY'` are quoted
alphabetic strings, but the split cuts them at `OR` and `AND`: the rules parse
to operator nodes with absent children, not to an operand node. -/
theorem parseRule_keyword_in_literal :
    parseRule "city='ORLANDO'".toList
      = Node.operator (Node.operator Node.null Node.null kwOR) Node.null kwAND ∧
    parseRule "name='ANDY'".toList = Node.operator Node.null Node.null kwAND ∧
    split "city='ORLANDO'".toList
      = ["city='".toList, kwOR, ['L'], kwAND, "O'".toList] ∧
    split "name='ANDY'".toList = ["name='".toList, kwAND, "Y'".toList] := by
  decide

/-! ## The stacks at the end of the loop (C19) -/

theorem segmentNode_leaf (seg : Str) :
    operatorCount (segmentNode seg) = 0 ∧ leaves (segmentNode seg) = [segmentNode seg] := by
  rcases segmentNode_cases seg with ⟨_, e⟩ | ⟨m, _, e, _⟩ <;> rw [e] <;> exact ⟨rfl, rfl⟩

theorem foldTail_count (tail : List Str) (hp : PartsTail tail) : ∀ (t : Node),
    operatorCount (foldTail t tail) = operatorCount t + (tail.filter isKeyword).length ∧
    leaves (foldTail t tail)
      = leaves t ++ (tail.filter (fun part => !isKeyword part)).map segmentNode := by
  induction hp with
  | nil => intro t; simp [foldTail]
  | cons kw seg rest hk hseg _ ih =>
    intro t
    obtain ⟨h1, h2⟩ := ih (Node.operator t (segmentNode seg) kw)
    obtain ⟨h3, h4⟩ := segmentNode_leaf seg
    have hkw := isKeyword_keyword kw hk
    have hsg := isKeyword_segment seg hseg
    constructor
    · simp only [foldTail, h1, operatorCount, h3, List.filter_cons, hkw, hsg, if_true,
        List.length_cons]
      simp
      omega
    · simp only [foldTail, h2, leaves, h4, List.filter_cons, hkw, hsg, Bool.not_true,
        Bool.not_false, if_true, List.map_cons]
      simp

/-- C19.  For every input string, when the loop of `parseRule` ends the
connective stack is empty and the node stack holds exactly one entry, the
value returned; that tree has one operator node per connective in the split of
the input without white space, and its leaves are, in order, the nodes of the
segments: the first operand match of the segment, or `null` when the segment
has no match. -/
theorem parseLoop_stacks (ruleString : Str) :
    (parseLoop ruleString).operatorStack = [] ∧
    (parseLoop ruleString).nodeStack = [parseRule ruleString] ∧
    operatorCount (parseRule ruleString)
      = ((split (trimmed ruleString)).filter isKeyword).length ∧
    leaves (parseRule ruleString)
      = ((split (trimmed ruleString)).filter (fun part => !isKeyword part)).map
          (fun seg => buildOperandAST (matchAll seg)) := by
  have hloop := parseLoop_eq ruleString
  have hparse : parseRule ruleString = foldParts (split (trimmed ruleString)) :=
    parseRule_eq_foldParts ruleString
  refine ⟨by rw [hloop], by rw [hloop, hparse]; rfl, ?_⟩
  obtain ⟨seg, tail, e, hseg, htail⟩ := split_parts (trimmed ruleString)
  obtain ⟨h1, h2⟩ := foldTail_count tail htail (segmentNode seg)
  obtain ⟨h3, h4⟩ := segmentNode_leaf seg
  have hsg := isKeyword_segment seg hseg
  rw [hparse, e]
  constructor
  · simp only [foldParts, h1, h3, List.filter_cons, hsg]
    simp
  · simp only [foldParts, h2, h4, List.filter_cons, hsg, Bool.not_false, if_true,
      List.map_cons]
    rfl

/-! ## The reference algorithm (C13) -/

theorem keywordAt_append_keyword (y kw : Str) (hy : y ≠ []) (hk : kw = kwAND ∨ kw = kwOR) :
    keywordAt (y ++ kw) = keywordAt y := by
  rcases y with _ | ⟨a, _ | ⟨b, _ | ⟨c, y3⟩⟩⟩
  · exact absurd rfl hy
  · rcases hk with rfl | rfl
    · by_cases ha : 'A' = a <;> by_cases ho : 'O' = a <;>
        simp [keywordAt, kwAND, kwOR, List.isPrefixOf, ha, ho]
    · by_cases ha : 'A' = a <;> by_cases ho : 'O' = a <;>
        simp [keywordAt, kwAND, kwOR, List.isPrefixOf, ha, ho]
  · rcases hk with rfl | rfl
    · by_cases ha : 'A' = a <;> by_cases hn : 'N' = b <;>
        simp [keywordAt, kwAND, kwOR, List.isPrefixOf, ha, hn]
    · by_cases ha : 'A' = a <;> by_cases hn : 'N' = b <;>
        simp [keywordAt, kwAND, kwOR, List.isPrefixOf, ha, hn]
  · simp [keywordAt, kwAND, kwOR, List.isPrefixOf]

theorem splitFrom_append_keyword (kw : Str) (hk : kw = kwAND ∨ kw = kwOR) (x : Str) :
    ∀ (skip : Nat) (acc : Str), skip ≤ x.length →
      splitFrom (x ++ kw) skip acc = splitFrom x skip acc ++ [kw, []] := by
  induction x with
  | nil =>
    intro skip acc hs
    have h0 : skip = 0 := by simpa using hs
    subst h0
    rw [List.nil_append, splitFrom_keyword kw kw [] acc hk (by simp)]
    simp [splitFrom]
  | cons c rest ih =>
    intro skip acc hs
    cases skip with
    | succ k =>
      have := ih k acc (by simpa using hs)
      simpa [splitFrom] using this
    | zero =>
      have hkey := keywordAt_append_keyword (c :: rest) kw (by simp) hk
      rw [List.cons_append] at hkey ⊢
      cases hq : keywordAt (c :: rest) with
      | some k1 =>
        have hlen : k1.length - 1 ≤ rest.length := by
          have := (keywordAt_some _ _ hq).2.length_le
          simp only [List.length_cons] at this
          omega
        rw [splitFrom, hkey, hq, splitFrom, hq]
        simp only []
        rw [ih (k1.length - 1) [] hlen]
        simp
      | none =>
        rw [splitFrom, hkey, hq, splitFrom, hq]
        simp only []
        exact ih 0 (c :: acc) (Nat.zero_le _)

theorem foldTail_append (tail : List Str) (hp : PartsTail tail) (kw seg : Str) :
    ∀ (t : Node), foldTail t (tail ++ [kw, seg])
      = Node.operator (foldTail t tail) (segmentNode seg) kw := by
  induction hp with
  | nil => intro t; rfl
  | cons k1 s1 rest _ _ _ ih => intro t; simpa [foldTail] using ih _

/-- A connective at the end of a rule is not dropped: it gives an operator
node with an absent right child. -/
theorem parseRule_append_keyword (s kw : Str) (hk : kw = kwAND ∨ kw = kwOR) :
    parseRule (s ++ kw) = Node.operator (parseRule s) Node.null kw := by
  have hparse : ∀ r : Str, parseRule r = foldParts (split (trimmed r)) := parseRule_eq_foldParts
  obtain ⟨seg, tail, e, _, htail⟩ := split_parts (trimmed s)
  have e2 : split (trimmed (s ++ kw)) = seg :: (tail ++ [kw, []]) := by
    rw [trimmed_append, trimmed_keyword kw hk]
    simp only [split] at e ⊢
    rw [splitFrom_append_keyword kw hk (trimmed s) 0 [] (Nat.zero_le _), e]
    rfl
  rw [hparse (s ++ kw), hparse s, e2, e]
  simp only [foldParts]
  rw [foldTail_append tail htail kw []]
  rfl

theorem referenceStep_pair (t : Node) (kw seg : Str) (hk : kw = kwAND ∨ kw = kwOR)
    (hseg : NoKeyword seg) (hm : matchAll seg ≠ []) :
    referenceStep (referenceStep ([], [t]) kw) seg
      = ([], [Node.operator t (segmentNode seg) kw]) := by
  have h1 : ¬ (seg = kwAND ∨ seg = kwOR) := by
    rintro (e | e)
    · exact not_noKeyword_kwAND (e ▸ hseg)
    · exact not_noKeyword_kwOR (e ▸ hseg)
  cases hms : matchAll seg with
  | nil => exact absurd hms hm
  | cons m ms =>
    simp [referenceStep, hk, h1, hms, referenceReduce, segmentNode, buildOperandAST]

theorem foldl_referenceStep_tail (tail : List Str) (hp : PartsTail tail)
    (h : ∀ part ∈ tail, part ≠ kwAND → part ≠ kwOR → matchAll part ≠ []) : ∀ (t : Node),
    tail.foldl referenceStep ([], [t]) = ([], [foldTail t tail]) := by
  induction hp with
  | nil => intro t; rfl
  | cons kw seg rest hk hseg _ ih =>
    intro t
    have hs : matchAll seg ≠ [] := h seg (by simp)
      (fun e => not_noKeyword_kwAND (e ▸ hseg)) (fun e => not_noKeyword_kwOR (e ▸ hseg))
    rw [List.foldl_cons, List.foldl_cons, referenceStep_pair t kw seg hk hseg hs,
      ih (fun part hp => h part (by simp [hp]))]
    rfl

/-- On a well-formed rule the reference algorithm returns what `parseRule`
returns. -/
theorem referenceParse_wellFormed (s : Str) (h : WellFormed s) :
    referenceParse s = some (parseRule s) := by
  obtain ⟨seg, tail, e, hseg, htail⟩ := split_parts (trimmed s)
  have hs : matchAll seg ≠ [] := h seg (by simp [e])
    (fun e1 => not_noKeyword_kwAND (e1 ▸ hseg)) (fun e1 => not_noKeyword_kwOR (e1 ▸ hseg))
  have h1 : ¬ (seg = kwAND ∨ seg = kwOR) := by
    rintro (e1 | e1)
    · exact not_noKeyword_kwAND (e1 ▸ hseg)
    · exact not_noKeyword_kwOR (e1 ▸ hseg)
  have hfirst : referenceStep ([], []) seg = ([], [segmentNode seg]) := by
    cases hms : matchAll seg with
    | nil => exact absurd hms hs
    | cons m ms => simp [referenceStep, h1, hms, referenceReduce, segmentNode, buildOperandAST]
  have hparse : parseRule s = foldParts (split (trimmed s)) := parseRule_eq_foldParts s
  unfold referenceParse
  rw [hparse, e, List.foldl_cons, hfirst,
    foldl_referenceStep_tail tail htail (fun part hp => h part (by simp [e, hp]))]
  rfl

/-- C13, as the code behaves.  On every well-formed rule `parseRule` returns
the result of the two-stack reference algorithm; but a connective with no
following operand is not dropped: for a connective `k`, `parseRule (s ++ k)`
is the operator node `Op(k, parseRule s, null)`. -/
theorem parseRule_reference (s k : Str) (h : WellFormed s) (hk : k = kwAND ∨ k = kwOR) :
    referenceParse s = some (parseRule s) ∧
    parseRule (s ++ k) = Node.operator (parseRule s) Node.null k :=
  ⟨referenceParse_wellFormed s h, parseRule_append_keyword s k hk⟩

/-- The rule `a>1`, followed by `AND`: the reference algorithm and `parseRule`
agree on `a>1`, and `a>1AND` parses to `Op(AND, a>1, null)`. -/
theorem parseRule_reference_witness :
    (WellFormed "a>1".toList ∧ (kwAND = kwAND ∨ kwAND = kwOR)) ∧
    (referenceParse "a>1".toList = some (parseRule "a>1".toList) ∧
      parseRule ("a>1".toList ++ kwAND)
        = Node.operator (parseRule "a>1".toList) Node.null kwAND) ∧
    parseRule "a>1AND".toList = Node.operator (Node.operand ['a'] ['>'] ['1']) Node.null kwAND :=
  ⟨⟨by unfold WellFormed; decide, Or.inl rfl⟩,
    parseRule_reference "a>1".toList kwAND (by unfold WellFormed; decide) (Or.inl rfl),
    by decide⟩

/-- C13, counterexample.  The rule `a>1AND` does not parse to the operand
`a>1`, which the reference algorithm returns, and `a>1ANDxyzORb>2` does not
parse to the reference result `Op(OR, a>1, b>2)`: the segment `xyz` is pushed
as `null` and both connectives are kept. -/
theorem parseRule_not_reference :
    parseRule "a>1AND".toList ≠ parseRule "a>1".toList ∧
    referenceParse "a>1AND".toList = some (Node.operand ['a'] ['>'] ['1']) ∧
    referenceParse "a>1ANDxyzORb>2".toList
      = some (Node.operator (Node.operand ['a'] ['>'] ['1'])
          (Node.operand ['b'] ['>'] ['2']) kwOR) ∧
    parseRule "a>1ANDxyzORb>2".toList
      = Node.operator
          (Node.operator (Node.operand ['a'] ['>'] ['1']) Node.null kwAND)
          (Node.operand ['b'] ['>'] ['2']) kwOR := by
  decide

/-! ## Creating a rule (C14) -/

/-- C14, as the code behaves.  For every rule list and every rule string, also
one without any operand, `create_rule` appends the value that `parseRule`
returns to the rule list, whether or not the statements after the push raise;
the list grows by one entry. -/
theorem create_rule_appends (page : List Node → Node → Except JSError Unit)
    (rules : List Node) (rule_string : Str) :
    (create_rule page rules rule_string).1 = rules ++ [parseRule rule_string] ∧
    (create_rule page rules rule_string).1.length = rules.length + 1 := by
  unfold create_rule
  cases h : page (rules ++ [parseRule rule_string]) (parseRule rule_string) <;> simp [h]

/-- C14, counterexample.  The rules `ANDAND` and the empty rule contain no
operand, and `create_rule` on the empty rule list stores an entry for them: an
operator node with absent children, and `null`; so it does when the statements
after the push raise. -/
theorem create_rule_stores_malformed :
    (create_rule (fun _ _ => Except.ok ()) [] "ANDAND".toList).1
      = [Node.operator (Node.operator Node.null Node.null kwAND) Node.null kwAND] ∧
    (create_rule (fun _ _ => Except.ok ()) [] []).1 = [Node.null] ∧
    (create_rule (fun _ _ => Except.error constAssignment) [] []).1 = [Node.null] ∧
    (create_rule (fun _ _ => Except.ok ()) [] "ANDAND".toList).1 ≠ [] := by
  decide

/-! ## Evaluation does not raise (C15) -/

theorem evaluateOperand_checked_ok (attr operator value : Str) (data : Record) :
    evaluateOperand_checked attr operator value data
      = Except.ok (evaluateOperand attr operator value data) := by
  unfold evaluateOperand_checked evaluateOperand
  cases hd : data attr with
  | undefined =>
    have ht : ¬ typeOf JSValue.undefined = "string".toList := by decide
    simp only [ht, if_false]
    split_ifs <;> rfl
  | number x =>
    have ht : ¬ typeOf (JSValue.number x) = "string".toList := by
      show ¬ "number".toList = "string".toList
      decide
    simp only [ht, if_false]
    split_ifs <;> rfl
  | string s =>
    have ht : typeOf (JSValue.string s) = "string".toList := rfl
    simp only [ht, if_true, callReplace]
    split_ifs <;> rfl
  | function t =>
    have ht : ¬ typeOf (JSValue.function t) = "string".toList := by
      show ¬ "function".toList = "string".toList
      decide
    simp only [ht, if_false]
    split_ifs <;> rfl

theorem evaluate_rule_checked_ok (ast : Node) (data : Record) :
    evaluate_rule_checked ast data = Except.ok (evaluate_rule ast data) := by
  induction ast with
  | null => rfl
  | operand a o v => exact evaluateOperand_checked_ok a o v data
  | operator l r v ihl ihr => simp [evaluate_rule_checked, evaluate_rule, ihl, ihr]

/-- C15.  For every input string and every record, `evaluate_rule` on the value
that `parseRule` returns does not raise: the evaluator with its raising
operations made explicit returns the boolean that `evaluate_rule` computes; and
an absent node evaluates to false. -/
theorem evaluate_rule_never_fails (ruleString : Str) (data : Record) :
    evaluate_rule_checked (parseRule ruleString) data
      = Except.ok (evaluate_rule (parseRule ruleString) data) ∧
    evaluate_rule_checked Node.null data = Except.ok false ∧
    evaluate_rule Node.null data = false :=
  ⟨evaluate_rule_checked_ok _ data, rfl, rfl⟩

/-! ## Missing attributes (C20) -/

theorem numberLt_nan_right (x : JSNumber) : numberLt x JSNumber.nan = none := by
  cases x <;> rfl

theorem evaluateOperand_undefined (attr op value : Str) (data : Record)
    (h : data attr = JSValue.undefined) : evaluateOperand attr op value data = false := by
  have h1 : ∀ c : Str, lessThan (JSValue.string c) JSValue.undefined = none :=
    fun c => numberLt_nan_right (stringToNumber c)
  have h2 : ∀ c : Str, lessThan JSValue.undefined (JSValue.string c) = none := by
    intro c
    simp [lessThan, toPrimitive, toNumber, numberLt]
  simp only [evaluateOperand, h, h1, h2, strictEquals]
  split_ifs <;> rfl

theorem objectRecord_undefined (entries : List (Str × JSValue)) (attr : Str)
    (h1 : entries.lookup attr = none) (h2 : attr ≠ "constructor".toList) :
    objectRecord entries attr = JSValue.undefined := by
  unfold objectRecord
  rw [h1]
  exact if_neg h2

/-- C20, as the code behaves.  For an operand node, whatever its comparator,
and a record object with no entry for the node's attribute, the attribute not
being `constructor`, `evaluate_rule` returns false; hence an `AND` with such an
operand is false and an `OR` with it is what the other child evaluates to. -/
theorem missing_entry (entries : List (Str × JSValue)) (attr op value : Str)
    (other : Node) (h1 : entries.lookup attr = none) (h2 : attr ≠ "constructor".toList) :
    evaluate_rule (Node.operand attr op value) (objectRecord entries) = false ∧
    evaluate_rule (Node.operator (Node.operand attr op value) other kwAND)
      (objectRecord entries) = false ∧
    evaluate_rule (Node.operator other (Node.operand attr op value) kwAND)
      (objectRecord entries) = false ∧
    evaluate_rule (Node.operator (Node.operand attr op value) other kwOR)
      (objectRecord entries) = evaluate_rule other (objectRecord entries) ∧
    evaluate_rule (Node.operator other (Node.operand attr op value) kwOR)
      (objectRecord entries) = evaluate_rule other (objectRecord entries) := by
  have h := evaluateOperand_undefined attr op value (objectRecord entries)
    (objectRecord_undefined entries attr h1 h2)
  have hk : ¬ kwOR = kwAND := by decide
  refine ⟨?_, ?_, ?_, ?_, ?_⟩ <;> simp [evaluate_rule, h, hk]

/-- The record `{age: 35}` has no entry `status`: the rule `status='active'` is
false on it, and so is `status>=1`. -/
theorem missing_entry_witness :
    (List.lookup "status".toList [("age".toList, JSValue.number (JSNumber.fin 35))] = none ∧
      "status".toList ≠ "constructor".toList) ∧
    evaluate_rule (Node.operand "status".toList ['='] "'active'".toList)
      (objectRecord [("age".toList, JSValue.number (JSNumber.fin 35))]) = false ∧
    evaluate_rule (parseRule "status='active'".toList)
      (objectRecord [("age".toList, JSValue.number (JSNumber.fin 35))]) = false ∧
    evaluate_rule (parseRule "status>=1".toList)
      (objectRecord [("age".toList, JSValue.number (JSNumber.fin 35))]) = false ∧
    evaluate_rule (parseRule "age>30ANDstatus='active'".toList)
      (objectRecord [("age".toList, JSValue.number (JSNumber.fin 35))]) = false ∧
    evaluate_rule (parseRule "age>30ORstatus='active'".toList)
      (objectRecord [("age".toList, JSValue.number (JSNumber.fin 35))]) = true :=
  ⟨⟨by decide, by decide⟩,
    (missing_entry [("age".toList, JSValue.number (JSNumber.fin 35))] "status".toList ['=']
      "'active'".toList Node.null (by decide) (by decide)).1,
    by decide, by decide, by decide, by decide⟩

/-- C20, counterexample.  The empty record object `{}` has no entry
`constructor`, but the lookup finds the function `Object` inherited from
`Object.prototype`; its text is greater than the string `1`, so the rule
`constructor>1` evaluates to true. -/
theorem missing_entry_constructor :
    List.lookup "constructor".toList ([] : List (Str × JSValue)) = none ∧
    parseRule "constructor>1".toList = Node.operand "constructor".toList ['>'] ['1'] ∧
    evaluate_rule (parseRule "constructor>1".toList) (objectRecord []) = true := by
  decide

end RuleEngine
